import Mathlib

/-!
Shallow embedding of the polygon-ring core of the repository:
the circular doubly-linked vertex list (CircularLinkedList.ts), the
stateless geometry algorithms (GeometryUtils.ts) and the level-of-detail
controller (LevelOfDetail.ts).

Vertices live in an explicit heap mapping integer node ids to node
records with next and prev pointer fields, so that pointer mutation,
aliasing and sharing are represented faithfully.  Numbers are modelled
by an arbitrary coordinate type: the rationals for all operations whose
arithmetic is field arithmetic, and the reals where the source uses
sqrt or trigonometric functions.  The optional per-vertex metadata of
Node.ts is not modelled: none of the properties below concern it.
-/

/-- Model of the ListNode class of Node.ts: a mutable 2D point with a
next and a prev pointer.  A pointer is an optional node id (null is
none). -/
structure ListNode (A : Type) where
  x : A
  y : A
  next : Option Nat := none
  prev : Option Nat := none
deriving DecidableEq

instance [Inhabited A] : Inhabited (ListNode A) :=
  ⟨⟨default, default, none, none⟩⟩

/-- The object heap: a partial map from node ids to nodes, together
with the next unallocated id.  All node allocation goes through
Heap.alloc, so every live id is below fresh. -/
structure Heap (A : Type) where
  mem : Nat → Option (ListNode A)
  fresh : Nat

/-- The empty heap. -/
def Heap.empty (A : Type) : Heap A := ⟨fun _ => none, 0⟩

/-- Overwrite the node stored at id i. -/
def Heap.write (h : Heap A) (i : Nat) (n : ListNode A) : Heap A :=
  ⟨fun j => if j = i then some n else h.mem j, h.fresh⟩

/-- Dereference a node id.  On a dangling id this returns a junk node
with null pointers (the TypeScript original would crash); all theorems
below only dereference live ids. -/
def Heap.get [Inhabited A] (h : Heap A) (i : Nat) : ListNode A :=
  (h.mem i).getD default

/-- Allocate a fresh node with the given coordinates and null pointers,
returning the new heap and the new id. -/
def Heap.alloc (h : Heap A) (x y : A) : Heap A × Nat :=
  (⟨fun j => if j = h.fresh then some ⟨x, y, none, none⟩ else h.mem j, h.fresh + 1⟩, h.fresh)

/-- Write the next pointer of node i (models node.next = v). -/
def setNext [Inhabited A] (h : Heap A) (i : Nat) (v : Option Nat) : Heap A :=
  h.write i { h.get i with next := v }

/-- Write the prev pointer of node i (models node.prev = v). -/
def setPrev [Inhabited A] (h : Heap A) (i : Nat) (v : Option Nat) : Heap A :=
  h.write i { h.get i with prev := v }

/-- Write the coordinates of node i (models node.setPosition(x, y)). -/
def setPos [Inhabited A] (h : Heap A) (i : Nat) (px py : A) : Heap A :=
  h.write i { h.get i with x := px, y := py }

/-- Dereference the non-null-asserted next pointer (node.next!).  The
getD 0 default is junk that is never reached on valid rings. -/
def nextOf [Inhabited A] (h : Heap A) (i : Nat) : Nat :=
  ((h.get i).next).getD 0

/-- Dereference the non-null-asserted prev pointer (node.prev!). -/
def prevOf [Inhabited A] (h : Heap A) (i : Nat) : Nat :=
  ((h.get i).prev).getD 0

/-- Model of the per-list state of the CircularLinkedList class: a head
pointer (null when empty) and a size counter.  The nodes themselves
live in the shared heap. -/
structure CircularLinkedList where
  head : Option Nat := none
  size : Nat := 0
deriving DecidableEq

/-- Private helper insertAtEnd of CircularLinkedList.ts: finds the tail
node and inserts the new node between tail and head.  The four pointer
writes happen in source order. -/
def insertAtEnd [Inhabited A] (h : Heap A) (l : CircularLinkedList) (nid : Nat) : Heap A :=
  match l.head with
  | none => h
  | some hd =>
    let tail := prevOf h hd
    let h1 := setNext h tail (some nid)
    let h2 := setPrev h1 nid (some tail)
    let h3 := setNext h2 nid (some hd)
    setPrev h3 hd (some nid)

/-- Iterate the next pointer k times (the forward loop of getNodeAt). -/
def iterNext [Inhabited A] (h : Heap A) (i : Nat) : Nat → Nat
  | 0 => i
  | k + 1 => iterNext h (nextOf h i) k

/-- Iterate the prev pointer k times (the backward loop of getNodeAt). -/
def iterPrev [Inhabited A] (h : Heap A) (i : Nat) : Nat → Nat
  | 0 => i
  | k + 1 => iterPrev h (prevOf h i) k

/-- getNodeAt of CircularLinkedList.ts.  Out-of-range indices give none.
The source optimizes the traversal direction: forward from head when
index is at most size / 2 (real division, hence the 2 * i test), else
backward from head; the backward for loop runs from size - 1 down to
index + 1 and therefore takes size - 1 - index prev steps. -/
def getNodeAt [Inhabited A] (h : Heap A) (l : CircularLinkedList) (index : Int) : Option Nat :=
  if l.size = 0 ∨ index < 0 ∨ (l.size : Int) ≤ index then none
  else
    let i := index.toNat
    let hd := l.head.getD 0
    if 2 * i ≤ l.size then some (iterNext h hd i)
    else some (iterPrev h hd (l.size - 1 - i))

/-- Private helper insertAtIndex of CircularLinkedList.ts: index 0
re-uses insertAtEnd and reassigns head; otherwise the new node is
spliced in before the node getNodeAt returns (and if getNodeAt returns
null the links are left untouched). -/
def insertAtIndex [Inhabited A] (h : Heap A) (l : CircularLinkedList) (nid : Nat)
    (index : Nat) : Heap A × CircularLinkedList :=
  if index = 0 then (insertAtEnd h l nid, { l with head := some nid })
  else
    match getNodeAt h l (index : Int) with
    | none => (h, l)
    | some tgt =>
      let pN := prevOf h tgt
      let h1 := setNext h pN (some nid)
      let h2 := setPrev h1 nid (some pN)
      let h3 := setNext h2 nid (some tgt)
      (setPrev h3 tgt (some nid), l)

/-- addNode of CircularLinkedList.ts.  Allocates the new node, links it
according to the three cases of the source (empty list; index omitted
or at least size, hence append; otherwise insert at max 0 index), bumps
size, and returns the new state together with the new node id. -/
def addNode [Inhabited A] (h : Heap A) (l : CircularLinkedList) (x y : A)
    (index : Option Int) : Heap A × CircularLinkedList × Nat :=
  let a := h.alloc x y
  let h1 := a.1
  let nid := a.2
  let s :=
    if l.size = 0 then
      (setPrev (setNext h1 nid (some nid)) nid (some nid), { l with head := some nid })
    else
      match index with
      | none => (insertAtEnd h1 l nid, l)
      | some i =>
        if (l.size : Int) ≤ i then (insertAtEnd h1 l nid, l)
        else insertAtIndex h1 l nid (max 0 i).toNat
  (s.1, { s.2 with size := l.size + 1 }, nid)

/-- removeNodeByRef of CircularLinkedList.ts: unlink the given node,
reassigning head when the removed node was head and collapsing to the
empty ring when size was 1, then sever the removed node's own pointers
and decrement size. -/
def removeNodeByRef [Inhabited A] (h : Heap A) (l : CircularLinkedList) (nid : Nat) :
    Heap A × CircularLinkedList × Option Nat :=
  if l.size = 0 then (h, l, none)
  else
    let s :=
      if l.size = 1 then (h, { l with head := none })
      else
        let pN := prevOf h nid
        let nN := nextOf h nid
        let h1 := setNext h pN (some nN)
        let h2 := setPrev h1 nN (some pN)
        (h2, if l.head = some nid then { l with head := some nN } else l)
    let h3 := setPrev (setNext s.1 nid none) nid none
    (h3, { s.2 with size := l.size - 1 }, some nid)

/-- removeNode of CircularLinkedList.ts: guard the index, look the node
up with getNodeAt and remove it by reference. -/
def removeNode [Inhabited A] (h : Heap A) (l : CircularLinkedList) (index : Int) :
    Heap A × CircularLinkedList × Option Nat :=
  if l.size = 0 ∨ index < 0 ∨ (l.size : Int) ≤ index then (h, l, none)
  else
    match getNodeAt h l index with
    | none => (h, l, none)
    | some nid => removeNodeByRef h l nid

/-- The id sequence visited by a traversal of k steps starting at i,
following next pointers (the body of traverse). -/
def idsFrom [Inhabited A] (h : Heap A) (i : Nat) : Nat → List Nat
  | 0 => []
  | k + 1 => i :: idsFrom h (nextOf h i) k

/-- The id sequence visited by traverse of CircularLinkedList.ts:
nothing for the empty list, else size steps from head. -/
def traverseIds [Inhabited A] (h : Heap A) (l : CircularLinkedList) : List Nat :=
  if l.size = 0 then [] else idsFrom h (l.head.getD 0) l.size

/-- toArray of CircularLinkedList.ts: the traversal order point
sequence. -/
def toArray [Inhabited A] (h : Heap A) (l : CircularLinkedList) : List (A × A) :=
  (traverseIds h l).map fun i => ((h.get i).x, (h.get i).y)

/-- The loop of reverse: at each visited node swap the next and prev
pointers, then advance through the already swapped next pointer (which
holds the old prev), exactly as the traverse callback of the source
does. -/
def revLoop [Inhabited A] (h : Heap A) (i : Nat) : Nat → Heap A
  | 0 => h
  | k + 1 =>
    let n := h.get i
    let h2 := h.write i { n with next := n.prev, prev := n.next }
    revLoop h2 (nextOf h2 i) k

/-- reverse of CircularLinkedList.ts: no-op for size at most 1, else
swap next and prev at every vertex and reassign head to this.head.next
as read from the mutated heap. -/
def reverse [Inhabited A] (h : Heap A) (l : CircularLinkedList) :
    Heap A × CircularLinkedList :=
  if l.size ≤ 1 then (h, l)
  else
    let hd := l.head.getD 0
    let h2 := revLoop h hd l.size
    (h2, { l with head := (h2.get hd).next })

/-- Building a list from an ordered point sequence by repeated
end-insertion: the constructor of CircularLinkedList.ts (via
initializeFromPoints), and the core of clone.  Each addNode call only
writes fresh nodes of the list under construction, so reading the
source points up front is equivalent to the interleaved traversal of
the source. -/
def fromPoints [Inhabited A] (h : Heap A) (pts : List (A × A)) :
    Heap A × CircularLinkedList :=
  pts.foldl (fun s p =>
    let r := addNode s.1 s.2 p.1 p.2 none
    (r.1, r.2.1)) (h, ({} : CircularLinkedList))

/-- clone of CircularLinkedList.ts: a fresh list holding a deep copy of
the point sequence (metadata is not modelled). -/
def cloneList [Inhabited A] (h : Heap A) (l : CircularLinkedList) :
    Heap A × CircularLinkedList :=
  fromPoints h (toArray h l)

/-- The do-while loop of validate, with an explicit fuel argument.  The
loop increments nodeCount, bails out with false as soon as nodeCount
exceeds size + 1, advances through next, stops when it is back at head
and then checks nodeCount = size; fuel size + 2 therefore never runs
out. -/
def vLoop [Inhabited A] (h : Heap A) (hd sz : Nat) : Nat → Nat → Nat → Bool
  | 0, _, _ => false
  | fuel + 1, cur, count =>
    let n := h.get cur
    match n.next, n.prev with
    | some nx, some pv =>
      if (h.get nx).prev ≠ some cur then false
      else if (h.get pv).next ≠ some cur then false
      else
        let count2 := count + 1
        if sz + 1 < count2 then false
        else if nx = hd then decide (count2 = sz)
        else vLoop h hd sz fuel nx count2
    | _, _ => false

/-- validate of CircularLinkedList.ts: size 0 demands a null head, size
1 a self-linked head, and otherwise the forward do-while walk checks
that next and prev are non-null mutual inverses at every vertex, that
the walk returns to head, and that it visits exactly size nodes. -/
def validate [Inhabited A] (h : Heap A) (l : CircularLinkedList) : Bool :=
  if l.size = 0 then decide (l.head = none)
  else if l.size = 1 then
    match l.head with
    | none => false
    | some hd => decide ((h.get hd).next = some hd) && decide ((h.get hd).prev = some hd)
  else vLoop h (l.head.getD 0) l.size (l.size + 2) (l.head.getD 0) 0

/-! ## The structural ring invariant

A valid ring is described by the list of node ids in traversal order
from head: ids are distinct live ids below fresh, head is the first id
(none when empty), size is the length, and next and prev realize the
cyclic successor and predecessor of that list. -/

/-- Cyclic indexing into an id list. -/
def cyc (ids : List Nat) (i : Nat) : Nat := ids.getD (i % ids.length) 0

/-- The structural invariant of a CircularLinkedList, relative to its
traversal-order id list. -/
def RingInv [Inhabited A] (h : Heap A) (l : CircularLinkedList) (ids : List Nat) : Prop :=
  ids.Nodup ∧ l.head = ids.head? ∧ l.size = ids.length ∧
  (∀ id ∈ ids, (h.mem id).isSome ∧ id < h.fresh) ∧
  ∀ i, i < ids.length →
    (h.get (cyc ids i)).next = some (cyc ids (i + 1)) ∧
    (h.get (cyc ids i)).prev = some (cyc ids (i + ids.length - 1))

/-- A ring is well formed when some id list realizes the invariant. -/
def WF [Inhabited A] (h : Heap A) (l : CircularLinkedList) : Prop :=
  ∃ ids, RingInv h l ids

theorem Heap.mem_write (h : Heap A) (i : Nat) (n : ListNode A) (j : Nat) :
    (h.write i n).mem j = if j = i then some n else h.mem j := rfl

theorem Heap.fresh_write (h : Heap A) (i : Nat) (n : ListNode A) :
    (h.write i n).fresh = h.fresh := rfl

theorem Heap.get_write [Inhabited A] (h : Heap A) (i : Nat) (n : ListNode A) (j : Nat) :
    (h.write i n).get j = if j = i then n else h.get j := by
  by_cases hj : j = i <;> simp [Heap.get, Heap.mem_write, hj]

theorem Heap.get_write_self [Inhabited A] (h : Heap A) (i : Nat) (n : ListNode A) :
    (h.write i n).get i = n := by simp [Heap.get_write]

theorem Heap.get_write_ne [Inhabited A] (h : Heap A) (i : Nat) (n : ListNode A) (j : Nat)
    (hj : j ≠ i) : (h.write i n).get j = h.get j := by simp [Heap.get_write, hj]

theorem cyc_lt (ids : List Nat) (hne : ids ≠ []) (i : Nat) :
    i % ids.length < ids.length :=
  Nat.mod_lt _ (List.length_pos.mpr hne)

theorem cyc_get (ids : List Nat) (i : Nat) (hi : i < ids.length) :
    cyc ids i = ids.get ⟨i, hi⟩ := by
  simp [cyc, Nat.mod_eq_of_lt hi, List.getD_eq_getElem?_getD, List.getElem?_eq_getElem hi]

theorem cyc_mem (ids : List Nat) (hne : ids ≠ []) (i : Nat) : cyc ids i ∈ ids := by
  rw [cyc, List.getD_eq_getElem?_getD, List.getElem?_eq_getElem (cyc_lt ids hne i)]
  exact List.getElem_mem _

theorem cyc_mod (ids : List Nat) (i : Nat) : cyc ids (i % ids.length) = cyc ids i := by
  simp [cyc, Nat.mod_mod_of_dvd, Nat.mod_mod]

theorem cyc_add_length (ids : List Nat) (i : Nat) :
    cyc ids (i + ids.length) = cyc ids i := by
  simp [cyc, Nat.add_mod_right]

theorem RingInv.nodup [Inhabited A] {h : Heap A} {l : CircularLinkedList} {ids : List Nat}
    (hinv : RingInv h l ids) : ids.Nodup := hinv.1

theorem RingInv.head_eq [Inhabited A] {h : Heap A} {l : CircularLinkedList} {ids : List Nat}
    (hinv : RingInv h l ids) : l.head = ids.head? := hinv.2.1

theorem RingInv.size_eq [Inhabited A] {h : Heap A} {l : CircularLinkedList} {ids : List Nat}
    (hinv : RingInv h l ids) : l.size = ids.length := hinv.2.2.1

theorem RingInv.isSome [Inhabited A] {h : Heap A} {l : CircularLinkedList} {ids : List Nat}
    (hinv : RingInv h l ids) {id : Nat} (hid : id ∈ ids) : (h.mem id).isSome :=
  (hinv.2.2.2.1 id hid).1

theorem RingInv.lt_fresh [Inhabited A] {h : Heap A} {l : CircularLinkedList} {ids : List Nat}
    (hinv : RingInv h l ids) {id : Nat} (hid : id ∈ ids) : id < h.fresh :=
  (hinv.2.2.2.1 id hid).2

/-- The next pointer fact of the invariant, for an arbitrary cyclic
index. -/
theorem RingInv.next_cyc [Inhabited A] {h : Heap A} {l : CircularLinkedList} {ids : List Nat}
    (hinv : RingInv h l ids) (hne : ids ≠ []) (i : Nat) :
    (h.get (cyc ids i)).next = some (cyc ids (i + 1)) := by
  have hlt := cyc_lt ids hne i
  have := (hinv.2.2.2.2 (i % ids.length) hlt).1
  rw [cyc_mod] at this
  rw [this]
  congr 1
  rw [cyc, cyc, Nat.mod_add_mod]

/-- The prev pointer fact of the invariant, for an arbitrary cyclic
index. -/
theorem RingInv.prev_cyc [Inhabited A] {h : Heap A} {l : CircularLinkedList} {ids : List Nat}
    (hinv : RingInv h l ids) (hne : ids ≠ []) (i : Nat) :
    (h.get (cyc ids i)).prev = some (cyc ids (i + ids.length - 1)) := by
  have hpos : 0 < ids.length := List.length_pos.mpr hne
  have hlt := cyc_lt ids hne i
  have := (hinv.2.2.2.2 (i % ids.length) hlt).2
  rw [cyc_mod] at this
  rw [this]
  congr 1
  have h1 : i % ids.length + ids.length - 1 = i % ids.length + (ids.length - 1) := by omega
  have h2 : i + ids.length - 1 = i + (ids.length - 1) := by omega
  rw [cyc, cyc, h1, h2, Nat.mod_add_mod]

/-- Every member of ids is a cyclic index. -/
theorem mem_eq_cyc {ids : List Nat} {a : Nat} (ha : a ∈ ids) :
    ∃ i, i < ids.length ∧ a = cyc ids i := by
  obtain ⟨⟨i, hi⟩, rfl⟩ := List.mem_iff_get.mp ha
  exact ⟨i, hi, (cyc_get ids i hi).symm⟩

/-- Cyclic indexing is injective below the length on duplicate-free
lists. -/
theorem cyc_inj {ids : List Nat} (hnd : ids.Nodup) {i j : Nat}
    (hi : i < ids.length) (hj : j < ids.length) (hij : cyc ids i = cyc ids j) : i = j := by
  rw [cyc_get ids i hi, cyc_get ids j hj] at hij
  exact Fin.mk.injEq _ _ _ _ ▸ (List.Nodup.get_inj_iff hnd).mp hij

theorem idsFrom_length [Inhabited A] (h : Heap A) (i : Nat) (k : Nat) :
    (idsFrom h i k).length = k := by
  induction k generalizing i with
  | zero => rfl
  | succ k ih => simp [idsFrom, ih]

theorem traverseIds_length [Inhabited A] (h : Heap A) (l : CircularLinkedList) :
    (traverseIds h l).length = l.size := by
  rw [traverseIds]
  split
  · simp [*]
  · exact idsFrom_length h _ _

theorem toArray_length [Inhabited A] (h : Heap A) (l : CircularLinkedList) :
    (toArray h l).length = l.size := by
  rw [toArray, List.length_map, traverseIds_length]

/-- Walking k next steps from cyclic position j reads off the slice of
ids starting at j, as long as the walk does not wrap. -/
theorem idsFrom_eq_slice [Inhabited A] {h : Heap A} {l : CircularLinkedList} {ids : List Nat}
    (hinv : RingInv h l ids) :
    ∀ k j, j + k ≤ ids.length → idsFrom h (cyc ids j) k = (ids.drop j).take k := by
  intro k
  induction k with
  | zero => intro j _; simp [idsFrom]
  | succ k ih =>
    intro j hjk
    have hne : ids ≠ [] := by
      intro hnil; rw [hnil] at hjk; simp at hjk
    have hj : j < ids.length := by omega
    have hnext : nextOf h (cyc ids j) = cyc ids (j + 1) := by
      rw [nextOf, hinv.next_cyc hne j]; rfl
    rw [idsFrom, hnext, ih (j + 1) (by omega)]
    rw [List.drop_eq_getElem_cons hj, List.take_succ_cons]
    congr 1
    rw [cyc_get ids j hj]
    rfl

/-- Under the invariant, traverse visits exactly ids. -/
theorem traverseIds_eq [Inhabited A] {h : Heap A} {l : CircularLinkedList} {ids : List Nat}
    (hinv : RingInv h l ids) : traverseIds h l = ids := by
  rw [traverseIds, hinv.size_eq]
  rcases ids with _ | ⟨a, t⟩
  · simp
  · have hd0 : (l.head).getD 0 = cyc (a :: t) 0 := by
      rw [hinv.head_eq]; rfl
    rw [if_neg (by simp), hd0, idsFrom_eq_slice hinv _ 0 (by omega)]
    simp

/-- Under the invariant, toArray is the position sequence of ids. -/
theorem toArray_eq [Inhabited A] {h : Heap A} {l : CircularLinkedList} {ids : List Nat}
    (hinv : RingInv h l ids) :
    toArray h l = ids.map fun i => ((h.get i).x, (h.get i).y) := by
  rw [toArray, traverseIds_eq hinv]

theorem cyc_elem (ids : List Nat) (i : Nat) (hi : i < ids.length) :
    cyc ids i = ids[i] := by
  rw [cyc_get ids i hi, List.get_eq_getElem]

theorem cyc_insert_lt (ids : List Nat) (nid t i : Nat) (ht : t ≤ ids.length) (hi : i < t) :
    cyc (ids.take t ++ nid :: ids.drop t) i = cyc ids i := by
  have hlen : (ids.take t ++ nid :: ids.drop t).length = ids.length + 1 := by simp; omega
  rw [cyc_elem _ i (by rw [hlen]; omega), cyc_elem ids i (by omega)]
  rw [List.getElem_append_left (by simp <;> omega)]
  exact List.getElem_take _

theorem cyc_insert_self (ids : List Nat) (nid t : Nat) (ht : t ≤ ids.length) :
    cyc (ids.take t ++ nid :: ids.drop t) t = nid := by
  have hlen : (ids.take t ++ nid :: ids.drop t).length = ids.length + 1 := by simp; omega
  rw [cyc_elem _ t (by rw [hlen]; omega)]
  rw [List.getElem_append_right (by simp <;> omega)]
  have h2 : t - (List.take t ids).length = 0 := by simp; omega
  simp only [h2, List.getElem_cons_zero]

theorem cyc_insert_gt (ids : List Nat) (nid t i : Nat) (ht : t ≤ ids.length)
    (hti : t < i) (hi : i < ids.length + 1) :
    cyc (ids.take t ++ nid :: ids.drop t) i = cyc ids (i - 1) := by
  have hlen : (ids.take t ++ nid :: ids.drop t).length = ids.length + 1 := by simp; omega
  rw [cyc_elem _ i (by rw [hlen]; omega), cyc_elem ids (i - 1) (by omega)]
  rw [List.getElem_append_right (by simp <;> omega)]
  have h2 : i - (List.take t ids).length = (i - t - 1) + 1 := by simp; omega
  simp only [h2, List.getElem_cons_succ]
  rw [List.getElem_drop]
  congr 1
  omega

theorem Heap.get_eq_of_mem [Inhabited A] (h : Heap A) (i : Nat) (n : ListNode A)
    (hm : h.mem i = some n) : h.get i = n := by
  simp [Heap.get, hm]

theorem Heap.isSome_mem_write (h : Heap A) (i : Nat) (n : ListNode A) (j : Nat) :
    ((h.write i n).mem j).isSome ↔ j = i ∨ (h.mem j).isSome := by
  by_cases hj : j = i <;> simp [Heap.mem_write, hj]

theorem get_setNext [Inhabited A] (h : Heap A) (i : Nat) (v : Option Nat) (j : Nat) :
    (setNext h i v).get j = if j = i then { h.get i with next := v } else h.get j := by
  simp [setNext, Heap.get_write]

theorem get_setPrev [Inhabited A] (h : Heap A) (i : Nat) (v : Option Nat) (j : Nat) :
    (setPrev h i v).get j = if j = i then { h.get i with prev := v } else h.get j := by
  simp [setPrev, Heap.get_write]

theorem get_setPos [Inhabited A] (h : Heap A) (i : Nat) (px py : A) (j : Nat) :
    (setPos h i px py).get j = if j = i then { h.get i with x := px, y := py }
      else h.get j := by
  simp [setPos, Heap.get_write]

theorem mem_setNext [Inhabited A] (h : Heap A) (i : Nat) (v : Option Nat) (j : Nat) :
    (setNext h i v).mem j = if j = i then some { h.get i with next := v } else h.mem j := by
  simp [setNext, Heap.mem_write]

theorem mem_setPrev [Inhabited A] (h : Heap A) (i : Nat) (v : Option Nat) (j : Nat) :
    (setPrev h i v).mem j = if j = i then some { h.get i with prev := v } else h.mem j := by
  simp [setPrev, Heap.mem_write]

theorem mem_setPos [Inhabited A] (h : Heap A) (i : Nat) (px py : A) (j : Nat) :
    (setPos h i px py).mem j = if j = i then some { h.get i with x := px, y := py }
      else h.mem j := by
  simp [setPos, Heap.mem_write]

theorem fresh_setNext [Inhabited A] (h : Heap A) (i : Nat) (v : Option Nat) :
    (setNext h i v).fresh = h.fresh := rfl

theorem fresh_setPrev [Inhabited A] (h : Heap A) (i : Nat) (v : Option Nat) :
    (setPrev h i v).fresh = h.fresh := rfl

theorem fresh_setPos [Inhabited A] (h : Heap A) (i : Nat) (px py : A) :
    (setPos h i px py).fresh = h.fresh := rfl

/-- Effect of the four pointer writes shared by insertAtEnd and the
generic branch of insertAtIndex: splicing a fresh node nid between the
cyclically consecutive vertices at positions t - 1 and t produces a
valid ring again, on the id list with nid inserted at position t.  The
lemma also records that the writes touch no node outside the ring, no
coordinate of any old node, and not the heap's fresh counter. -/
theorem splice_invariant [Inhabited A] {h : Heap A} {l : CircularLinkedList} {ids : List Nat}
    (hinv : RingInv h l ids) (hne : ids ≠ []) {nid : Nat} (hnid : nid ∉ ids)
    (hfr : nid < h.fresh) {node0 : ListNode A} (hmemn : h.mem nid = some node0)
    (t : Nat) (ht1 : 1 ≤ t) (ht2 : t ≤ ids.length) {u v : Nat}
    (hu : u = cyc ids (t - 1)) (hv : v = cyc ids t) {h4 : Heap A}
    (heq : h4 = setPrev (setNext (setPrev (setNext h u (some nid)) nid (some u)) nid
      (some v)) v (some nid)) :
    RingInv h4 ⟨l.head, l.size + 1⟩ (ids.take t ++ nid :: ids.drop t) ∧
    (∀ j, j ∉ ids → j ≠ nid → h4.mem j = h.mem j) ∧
    (∀ j, j ≠ nid → (h4.get j).x = (h.get j).x ∧ (h4.get j).y = (h.get j).y) ∧
    (h4.get nid).x = node0.x ∧ (h4.get nid).y = node0.y ∧ h4.fresh = h.fresh := by
  have hn : 0 < ids.length := List.length_pos.mpr hne
  have humem : u ∈ ids := hu ▸ cyc_mem ids hne _
  have hvmem : v ∈ ids := hv ▸ cyc_mem ids hne _
  have hun : u ≠ nid := fun e => hnid (e ▸ humem)
  have hvn : v ≠ nid := fun e => hnid (e ▸ hvmem)
  have hnu : nid ≠ u := Ne.symm hun
  have hnv : nid ≠ v := Ne.symm hvn
  have memne : ∀ i2 : Nat, cyc ids i2 ≠ nid := fun i2 e => hnid (e ▸ cyc_mem ids hne i2)
  have inj : ∀ i2 j2, i2 < ids.length → j2 < ids.length →
      cyc ids i2 = cyc ids j2 → i2 = j2 := fun _ _ hi hj => cyc_inj hinv.nodup hi hj
  have Fnext : ∀ j, j ≠ u → j ≠ nid → (h4.get j).next = (h.get j).next := by
    intro j hju hjn
    rw [heq]
    simp only [get_setPrev, get_setNext]
    by_cases hjv : j = v
    · subst hjv; simp [hju, hjn]
    · simp [hju, hjn, hjv]
  have Fprev : ∀ j, j ≠ v → j ≠ nid → (h4.get j).prev = (h.get j).prev := by
    intro j hjv hjn
    rw [heq]
    simp only [get_setPrev, get_setNext]
    by_cases hju : j = u
    · subst hju; simp [hjv, hjn]
    · simp [hju, hjn, hjv]
  have Fu : (h4.get u).next = some nid := by
    rw [heq]
    simp only [get_setPrev, get_setNext]
    by_cases huv : u = v
    · rw [← huv]; simp [hun]
    · simp [hun, huv]
  have Fv : (h4.get v).prev = some nid := by
    rw [heq]
    simp only [get_setPrev, get_setNext]
    simp
  have Fnid : h4.get nid = ⟨node0.x, node0.y, some v, some u⟩ := by
    rw [heq]
    simp only [get_setPrev, get_setNext]
    simp [hnv, hnu, Heap.get_eq_of_mem h nid node0 hmemn]
  have Fxy : ∀ j, j ≠ nid → (h4.get j).x = (h.get j).x ∧ (h4.get j).y = (h.get j).y := by
    intro j hjn
    rw [heq]
    simp only [get_setPrev, get_setNext]
    by_cases hju : j = u
    · subst hju
      by_cases huv : j = v
      · rw [← huv]; simp [hjn]
      · simp [hjn, huv]
    · by_cases hjv : j = v
      · subst hjv; simp [hjn, hju]
      · simp [hju, hjv, hjn]
  have Fmem : ∀ j, j ∉ ids → j ≠ nid → h4.mem j = h.mem j := by
    intro j hj hjn
    have hju : j ≠ u := fun e => hj (e ▸ humem)
    have hjv : j ≠ v := fun e => hj (e ▸ hvmem)
    rw [heq]
    simp only [mem_setPrev, mem_setNext]
    simp [hju, hjv, hjn]
  have Fsome : ∀ j, j ∈ ids ∨ j = nid → (h4.mem j).isSome := by
    intro j hj
    rw [heq]
    simp only [setPrev, setNext, Heap.isSome_mem_write]
    rcases hj with hj | rfl
    · by_cases hjv : j = v
      · exact Or.inl hjv
      · by_cases hju : j = u
        · exact Or.inr (Or.inr (Or.inr (Or.inl hju)))
        · exact Or.inr (Or.inr (Or.inr (Or.inr (hinv.isSome hj))))
    · exact Or.inr (Or.inl rfl)
  have Ffresh : h4.fresh = h.fresh := by rw [heq]; rfl
  have hlen2 : (ids.take t ++ nid :: ids.drop t).length = ids.length + 1 := by simp; omega
  have c_lt : ∀ i, i < t → cyc (ids.take t ++ nid :: ids.drop t) i = cyc ids i :=
    fun i hi => cyc_insert_lt ids nid t i ht2 hi
  have c_self : cyc (ids.take t ++ nid :: ids.drop t) t = nid := cyc_insert_self ids nid t ht2
  have c_gt : ∀ i, t < i → i < ids.length + 1 →
      cyc (ids.take t ++ nid :: ids.drop t) i = cyc ids (i - 1) :=
    fun i h1 h2 => cyc_insert_gt ids nid t i ht2 h1 h2
  refine ⟨⟨?_, ?_, ?_, ?_, ?_⟩, Fmem, Fxy, (by rw [Fnid]), (by rw [Fnid]), Ffresh⟩
  · -- nodup
    have h0 := hinv.nodup
    rw [← List.take_append_drop t ids, List.nodup_append] at h0
    rw [List.nodup_append]
    refine ⟨h0.1, List.nodup_cons.mpr ⟨fun hmem => hnid (List.drop_subset t ids hmem),
      h0.2.1⟩, ?_⟩
    intro a ha hb
    rcases List.mem_cons.mp hb with rfl | hb2
    · exact hnid (List.take_subset t ids ha)
    · exact h0.2.2 ha hb2
  · -- head
    rcases ids with _ | ⟨a, rest⟩
    · exact absurd rfl hne
    · rcases t with _ | t1
      · omega
      · simpa using hinv.head_eq
  · -- size
    rw [hlen2]
    have := hinv.size_eq
    simp [this]
  · -- live ids
    intro id hid
    have hid2 : id ∈ ids ∨ id = nid := by
      rcases List.mem_append.mp hid with hmem | hmem
      · exact Or.inl (List.take_subset t ids hmem)
      · rcases List.mem_cons.mp hmem with rfl | hmem2
        · exact Or.inr rfl
        · exact Or.inl (List.drop_subset t ids hmem2)
    refine ⟨Fsome id hid2, ?_⟩
    rw [Ffresh]
    rcases hid2 with hmem | rfl
    · exact hinv.lt_fresh hmem
    · exact hfr
  · -- pointer chain
    intro i hi
    rw [hlen2] at hi
    constructor
    · -- next pointers
      rcases Nat.lt_trichotomy i (t - 1) with hcase | hcase | hcase
      · have e1 := c_lt i (by omega)
        have e2 := c_lt (i + 1) (by omega)
        have hneu : cyc ids i ≠ u := by
          intro e
          have := inj i (t - 1) (by omega) (by omega) (by rw [← hu]; exact e)
          omega
        rw [e1, e2, Fnext _ hneu (memne i), hinv.next_cyc hne i]
      · subst hcase
        have e1 : cyc (ids.take t ++ nid :: ids.drop t) (t - 1) = u := by
          rw [c_lt (t - 1) (by omega), hu]
        have e2 : (t - 1) + 1 = t := by omega
        rw [e1, e2, c_self, Fu]
      · rcases Nat.lt_trichotomy i t with hc2 | hc2 | hc2
        · omega
        · subst hc2
          rw [c_self, Fnid]
          show some v = _
          by_cases hend : i + 1 ≤ ids.length
          · rw [c_gt (i + 1) (by omega) (by omega), hv, Nat.add_sub_cancel]
          · have hieq : i = ids.length := by omega
            have : i + 1 = 0 + (ids.take i ++ nid :: ids.drop i).length := by
              rw [hlen2]; omega
            rw [this, cyc_add_length, c_lt 0 (by omega), hv, hieq]
            have : ids.length = 0 + ids.length := by omega
            rw [this, cyc_add_length]
        · have e1 := c_gt i hc2 (by omega)
          have hneu : cyc ids (i - 1) ≠ u := by
            intro e
            have := inj (i - 1) (t - 1) (by omega) (by omega) (hu ▸ e)
            omega
          rw [e1, Fnext _ hneu (memne _), hinv.next_cyc hne (i - 1)]
          have e3 : i - 1 + 1 = i := by omega
          rw [e3]
          by_cases hend : i < ids.length
          · rw [c_gt (i + 1) (by omega) (by omega), Nat.add_sub_cancel]
          · have hieq : i = ids.length := by omega
            have h5 : i + 1 = 0 + (ids.take t ++ nid :: ids.drop t).length := by
              rw [hlen2]; omega
            rw [h5, cyc_add_length, c_lt 0 (by omega), hieq]
            have h6 : ids.length = 0 + ids.length := by omega
            rw [h6, cyc_add_length]
    · -- prev pointers
      have hvt : v = cyc ids (t % ids.length) := by rw [cyc_mod, hv]
      have hmlt : t % ids.length < ids.length := Nat.mod_lt _ hn
      rw [hlen2]
      rcases Nat.eq_or_lt_of_le (Nat.zero_le i) with hcase | hcase
      · -- i = 0
        subst hcase
        have e1 := c_lt 0 (by omega)
        by_cases htn : t = ids.length
        · have hv0 : v = cyc ids 0 := by
            rw [hvt, htn, Nat.mod_self]
          have egoal : cyc (ids.take t ++ nid :: ids.drop t) (0 + (ids.length + 1) - 1)
              = nid := by
            have h7 : 0 + (ids.length + 1) - 1 = t := by omega
            rw [h7, c_self]
          rw [e1, ← hv0, Fv, egoal]
        · have hnev : cyc ids 0 ≠ v := by
            intro e
            have h10 := inj 0 (t % ids.length) (by omega) hmlt (hvt ▸ e)
            rw [Nat.mod_eq_of_lt (by omega)] at h10
            omega
          rw [e1, Fprev _ hnev (memne 0), hinv.prev_cyc hne 0]
          have h7 : 0 + (ids.length + 1) - 1 = ids.length := by omega
          rw [h7, c_gt ids.length (by omega) (by omega)]
          have h8 : 0 + ids.length - 1 = ids.length - 1 := by omega
          rw [h8]
      · -- 0 < i
        have hwrap : i + (ids.length + 1) - 1 = (i - 1) + (ids.take t ++ nid ::
            ids.drop t).length := by rw [hlen2]; omega
        rw [hwrap, cyc_add_length]
        rcases Nat.lt_trichotomy i t with hc2 | hc2 | hc2
        · -- 0 < i < t
          have hnev : cyc ids i ≠ v := by
            intro e
            have h10 := inj i (t % ids.length) (by omega) hmlt (hvt ▸ e)
            by_cases htn : t = ids.length
            · rw [htn, Nat.mod_self] at h10; omega
            · rw [Nat.mod_eq_of_lt (by omega)] at h10; omega
          rw [c_lt i (by omega), Fprev _ hnev (memne i), hinv.prev_cyc hne i,
            c_lt (i - 1) (by omega)]
          have h8 : i + ids.length - 1 = (i - 1) + ids.length := by omega
          rw [h8, cyc_add_length]
        · -- i = t
          subst hc2
          rw [c_self, Fnid]
          show some u = _
          rw [c_lt (i - 1) (by omega), hu]
        · -- t < i
          by_cases hieq : i = t + 1
          · subst hieq
            have e1 : cyc (ids.take t ++ nid :: ids.drop t) (t + 1) = v := by
              rw [c_gt (t + 1) (by omega) (by omega), hv, Nat.add_sub_cancel]
            have e2 : cyc (ids.take t ++ nid :: ids.drop t) (t + 1 - 1) = nid := by
              have h9 : t + 1 - 1 = t := by omega
              rw [h9, c_self]
            rw [e1, Fv, e2]
          · -- t + 1 < i
            have htn : t < ids.length := by omega
            have hnev : cyc ids (i - 1) ≠ v := by
              intro e
              have h10 := inj (i - 1) (t % ids.length) (by omega) hmlt (hvt ▸ e)
              rw [Nat.mod_eq_of_lt htn] at h10
              omega
            rw [c_gt i (by omega) (by omega), Fprev _ hnev (memne _),
              hinv.prev_cyc hne (i - 1), c_gt (i - 1) (by omega) (by omega)]
            have h9 : i - 1 + ids.length - 1 = (i - 1 - 1) + ids.length := by omega
            rw [h9, cyc_add_length]

/-- Rotating the id list by one step: indexing the cons form equals
indexing the append form shifted by the length of the tail. -/
theorem cyc_cons_eq_append (ids : List Nat) (nid : Nat) (i : Nat) :
    cyc (nid :: ids) i = cyc (ids ++ [nid]) (i + ids.length) := by
  have hA : (nid :: ids).length = ids.length + 1 := by simp
  have hB : (ids ++ [nid]).length = ids.length + 1 := by simp
  simp only [cyc, hA, hB]
  have hmod : i % (ids.length + 1) < ids.length + 1 := Nat.mod_lt _ (by omega)
  have hmod2 : (i + ids.length) % (ids.length + 1)
      = (i % (ids.length + 1) + ids.length) % (ids.length + 1) := by
    rw [Nat.add_mod, Nat.mod_eq_of_lt (show ids.length < ids.length + 1 by omega)]
  rw [hmod2]
  rcases Nat.eq_zero_or_pos (i % (ids.length + 1)) with h0 | h0
  · rw [h0]
    have e2 : (0 + ids.length) % (ids.length + 1) = ids.length := by
      rw [Nat.zero_add, Nat.mod_eq_of_lt (by omega)]
    rw [e2, List.getD_cons_zero, List.getD_append_right ids [nid] 0 ids.length (by omega)]
    simp
  · obtain ⟨j, hj⟩ : ∃ j, i % (ids.length + 1) = j + 1 := ⟨i % (ids.length + 1) - 1, by omega⟩
    have hjlt : j < ids.length := by omega
    rw [hj]
    have e2 : (j + 1 + ids.length) % (ids.length + 1) = j := by
      have h3 : j + 1 + ids.length = j + (ids.length + 1) := by omega
      rw [h3, Nat.add_mod_right, Nat.mod_eq_of_lt (by omega)]
    rw [e2, List.getD_cons_succ, List.getD_append _ _ _ _ hjlt]

/-- A ring described by the id list xs ++ [a] is equally described by
a :: xs once its head is a: rotating the description does not change
the cyclic pointer structure. -/
theorem ringinv_rotate [Inhabited A] {h : Heap A} {lh : Option Nat} {sz : Nat}
    {xs : List Nat} {a : Nat}
    (hinv : RingInv h ⟨lh, sz⟩ (xs ++ [a])) :
    RingInv h ⟨some a, sz⟩ (a :: xs) := by
  have hne : xs ++ [a] ≠ [] := by simp
  have hperm : (xs ++ [a]).Perm (a :: xs) := List.perm_append_singleton a xs
  have hlen : (xs ++ [a]).length = xs.length + 1 := by simp
  refine ⟨hperm.nodup_iff.mp hinv.nodup, rfl, ?_, ?_, ?_⟩
  · have := hinv.size_eq
    simp at this ⊢
    omega
  · intro id hid
    have : id ∈ xs ++ [a] := (hperm.mem_iff).mpr hid
    exact ⟨hinv.isSome this, hinv.lt_fresh this⟩
  · intro i hi
    have hi2 : (a :: xs).length = xs.length + 1 := by simp
    constructor
    · rw [cyc_cons_eq_append xs a i, cyc_cons_eq_append xs a (i + 1)]
      have h3 : i + 1 + xs.length = (i + xs.length) + 1 := by omega
      rw [h3]
      exact hinv.next_cyc hne (i + xs.length)
    · rw [cyc_cons_eq_append xs a i, hi2, cyc_cons_eq_append xs a (i + (xs.length + 1) - 1)]
      have h3 : i + (xs.length + 1) - 1 + xs.length
          = (i + xs.length) + (xs ++ [a]).length - 1 := by
        rw [hlen]; omega
      rw [h3]
      exact hinv.prev_cyc hne (i + xs.length)

/-- Extending the heap without touching the nodes of a ring preserves
its invariant. -/
theorem ringinv_of_agree [Inhabited A] {h h2 : Heap A} {l : CircularLinkedList}
    {ids : List Nat} (hinv : RingInv h l ids)
    (hagree : ∀ id ∈ ids, h2.mem id = h.mem id) (hfr : h.fresh ≤ h2.fresh) :
    RingInv h2 l ids := by
  have hget : ∀ id ∈ ids, h2.get id = h.get id := by
    intro id hid
    rw [Heap.get, Heap.get, hagree id hid]
  refine ⟨hinv.nodup, hinv.head_eq, hinv.size_eq, ?_, ?_⟩
  · intro id hid
    rw [hagree id hid]
    exact ⟨hinv.isSome hid, lt_of_lt_of_le (hinv.lt_fresh hid) hfr⟩
  · intro i hi
    have hne : ids ≠ [] := by
      intro e; rw [e] at hi; simp at hi
    rw [hget _ (cyc_mem ids hne i)]
    exact ⟨hinv.next_cyc hne i, hinv.prev_cyc hne i⟩

theorem alloc_fresh (h : Heap A) (x y : A) : (h.alloc x y).1.fresh = h.fresh + 1 := rfl

theorem alloc_mem_self (h : Heap A) (x y : A) :
    (h.alloc x y).1.mem h.fresh = some ⟨x, y, none, none⟩ := by
  simp [Heap.alloc]

theorem alloc_mem_ne (h : Heap A) (x y : A) (j : Nat) (hj : j ≠ h.fresh) :
    (h.alloc x y).1.mem j = h.mem j := by
  simp [Heap.alloc, hj]

theorem alloc_get_ne [Inhabited A] (h : Heap A) (x y : A) (j : Nat) (hj : j ≠ h.fresh) :
    (h.alloc x y).1.get j = h.get j := by
  rw [Heap.get, Heap.get, alloc_mem_ne h x y j hj]

/-- Allocation preserves any ring invariant. -/
theorem ringinv_alloc [Inhabited A] {h : Heap A} {l : CircularLinkedList} {ids : List Nat}
    (hinv : RingInv h l ids) (x y : A) : RingInv (h.alloc x y).1 l ids := by
  refine ringinv_of_agree hinv ?_ (by rw [alloc_fresh]; omega)
  intro id hid
  exact alloc_mem_ne h x y id (by have := hinv.lt_fresh hid; omega)

theorem fresh_not_mem [Inhabited A] {h : Heap A} {l : CircularLinkedList} {ids : List Nat}
    (hinv : RingInv h l ids) : h.fresh ∉ ids :=
  fun hmem => lt_irrefl _ (hinv.lt_fresh hmem)

theorem head_getD_eq [Inhabited A] {h : Heap A} {l : CircularLinkedList} {ids : List Nat}
    (hinv : RingInv h l ids) (hne : ids ≠ []) : l.head.getD 0 = cyc ids 0 := by
  rcases ids with _ | ⟨a, rest⟩
  · exact absurd rfl hne
  · rw [hinv.head_eq]
    simp [cyc]

theorem nextOf_mem [Inhabited A] {h : Heap A} {l : CircularLinkedList} {ids : List Nat}
    (hinv : RingInv h l ids) {a : Nat} (ha : a ∈ ids) : nextOf h a ∈ ids := by
  have hne : ids ≠ [] := List.ne_nil_of_mem ha
  obtain ⟨i, hi, rfl⟩ := mem_eq_cyc ha
  rw [nextOf, hinv.next_cyc hne i, Option.getD_some]
  exact cyc_mem ids hne _

theorem prevOf_mem [Inhabited A] {h : Heap A} {l : CircularLinkedList} {ids : List Nat}
    (hinv : RingInv h l ids) {a : Nat} (ha : a ∈ ids) : prevOf h a ∈ ids := by
  have hne : ids ≠ [] := List.ne_nil_of_mem ha
  obtain ⟨i, hi, rfl⟩ := mem_eq_cyc ha
  rw [prevOf, hinv.prev_cyc hne i, Option.getD_some]
  exact cyc_mem ids hne _

theorem iterNext_mem [Inhabited A] {h : Heap A} {l : CircularLinkedList} {ids : List Nat}
    (hinv : RingInv h l ids) {a : Nat} (ha : a ∈ ids) (k : Nat) : iterNext h a k ∈ ids := by
  induction k generalizing a with
  | zero => exact ha
  | succ k ih => exact ih (nextOf_mem hinv ha)

theorem iterPrev_mem [Inhabited A] {h : Heap A} {l : CircularLinkedList} {ids : List Nat}
    (hinv : RingInv h l ids) {a : Nat} (ha : a ∈ ids) (k : Nat) : iterPrev h a k ∈ ids := by
  induction k generalizing a with
  | zero => exact ha
  | succ k ih => exact ih (prevOf_mem hinv ha)

/-- On a valid nonempty ring, getNodeAt with an in-range index returns
a node of the ring. -/
theorem getNodeAt_valid [Inhabited A] {h : Heap A} {l : CircularLinkedList} {ids : List Nat}
    (hinv : RingInv h l ids) (idx : Int) (h0 : 0 ≤ idx) (hlt : idx < (l.size : Int)) :
    ∃ m ∈ ids, getNodeAt h l idx = some m := by
  have hsz : l.size ≠ 0 := by omega
  have hne : ids ≠ [] := by
    intro e
    rw [hinv.size_eq, e] at hsz
    exact hsz rfl
  have hmem0 : l.head.getD 0 ∈ ids := by
    rw [head_getD_eq hinv hne]
    exact cyc_mem ids hne 0
  rw [getNodeAt, if_neg (by omega)]
  by_cases hdir : 2 * idx.toNat ≤ l.size
  · rw [if_pos hdir]
    exact ⟨_, iterNext_mem hinv hmem0 _, rfl⟩
  · rw [if_neg hdir]
    exact ⟨_, iterPrev_mem hinv hmem0 _, rfl⟩

/-- Case 1 of addNode: insertion into the empty list creates a
self-linked head. -/
theorem addNode_empty [Inhabited A] (h : Heap A) (l : CircularLinkedList)
    (hsz : l.size = 0) (x y : A) (idx : Option Int) :
    RingInv (addNode h l x y idx).1 (addNode h l x y idx).2.1 [h.fresh] ∧
    (addNode h l x y idx).2.2 = h.fresh ∧
    (addNode h l x y idx).1.fresh = h.fresh + 1 ∧
    (∀ j, j ≠ h.fresh → (addNode h l x y idx).1.mem j = h.mem j) ∧
    ((addNode h l x y idx).1.get h.fresh).x = x ∧
    ((addNode h l x y idx).1.get h.fresh).y = y := by
  have hstep : addNode h l x y idx
      = (setPrev (setNext (h.alloc x y).1 h.fresh (some h.fresh)) h.fresh (some h.fresh),
        ⟨some h.fresh, l.size + 1⟩, h.fresh) := by
    simp only [addNode]
    rw [if_pos hsz]
    rfl
  rw [hstep]
  have hget : (setPrev (setNext (h.alloc x y).1 h.fresh (some h.fresh)) h.fresh
      (some h.fresh)).get h.fresh = ⟨x, y, some h.fresh, some h.fresh⟩ := by
    rw [get_setPrev]
    rw [if_pos rfl, get_setNext, if_pos rfl]
    rw [Heap.get_eq_of_mem _ _ _ (alloc_mem_self h x y)]
  refine ⟨⟨?_, ?_, ?_, ?_, ?_⟩, rfl, rfl, ?_, ?_, ?_⟩
  · simp
  · rfl
  · simp [hsz]
  · intro id hid
    rcases List.mem_singleton.mp hid with rfl
    constructor
    · rw [mem_setPrev, if_pos rfl]
      rfl
    · show _ < (h.alloc x y).1.fresh
      rw [alloc_fresh]
      omega
  · intro i hi
    have hi0 : i = 0 := by simpa using hi
    subst hi0
    have hc : ∀ k, cyc [h.fresh] k = h.fresh := by
      intro k
      have : k % 1 = 0 := Nat.mod_one k
      simp [cyc, this]
    rw [hc, hc, hc, hget]
    exact ⟨rfl, rfl⟩
  · intro j hj
    rw [mem_setPrev, if_neg hj, mem_setNext, if_neg hj, alloc_mem_ne h x y j hj]
  · rw [hget]
  · rw [hget]

/-- Case 2 of addNode: index omitted or at least size appends the new
node at the end, before head. -/
theorem addNode_append [Inhabited A] {h : Heap A} {l : CircularLinkedList} {ids : List Nat}
    (hinv : RingInv h l ids) (hne : ids ≠ []) (x y : A) (idx : Option Int)
    (hidx : idx = none ∨ ∃ i, idx = some i ∧ (l.size : Int) ≤ i) :
    RingInv (addNode h l x y idx).1 (addNode h l x y idx).2.1 (ids ++ [h.fresh]) ∧
    (addNode h l x y idx).2.2 = h.fresh ∧
    (addNode h l x y idx).1.fresh = h.fresh + 1 ∧
    (∀ j, j ∉ ids → j ≠ h.fresh → (addNode h l x y idx).1.mem j = h.mem j) ∧
    (∀ j, j ≠ h.fresh → ((addNode h l x y idx).1.get j).x = (h.get j).x ∧
      ((addNode h l x y idx).1.get j).y = (h.get j).y) ∧
    ((addNode h l x y idx).1.get h.fresh).x = x ∧
    ((addNode h l x y idx).1.get h.fresh).y = y ∧
    (addNode h l x y idx).2.1 = ⟨l.head, l.size + 1⟩ := by
  have hsz : l.size ≠ 0 := by
    rw [hinv.size_eq]
    exact fun e => hne (List.length_eq_zero.mp e)
  have hstep : addNode h l x y idx
      = (insertAtEnd (h.alloc x y).1 l h.fresh, ⟨l.head, l.size + 1⟩, h.fresh) := by
    rcases hidx with rfl | ⟨i, rfl, hge⟩
    · simp only [addNode]
      rw [if_neg hsz]
      rfl
    · simp only [addNode]
      rw [if_neg hsz]
      show ((if (l.size : Int) ≤ i then _ else _ : Heap A × CircularLinkedList).1, _, _) = _
      rw [if_pos hge]
      rfl
  rw [hstep]
  have hinv1 : RingInv (h.alloc x y).1 l ids := ringinv_alloc hinv x y
  obtain ⟨a, hhd⟩ : ∃ a, l.head = some a := by
    rw [hinv.head_eq]
    rcases ids with _ | ⟨a, rest⟩
    · exact absurd rfl hne
    · exact ⟨a, rfl⟩
  have ha : a = cyc ids 0 := by
    have h9 := head_getD_eq hinv hne
    rw [hhd] at h9
    exact h9
  have hie : insertAtEnd (h.alloc x y).1 l h.fresh
      = setPrev (setNext (setPrev (setNext (h.alloc x y).1 (prevOf (h.alloc x y).1 a)
          (some h.fresh)) h.fresh (some (prevOf (h.alloc x y).1 a))) h.fresh (some a)) a
          (some h.fresh) := by
    simp only [insertAtEnd, hhd]
  have hu : prevOf (h.alloc x y).1 a = cyc ids (ids.length - 1) := by
    rw [prevOf, ha, hinv1.prev_cyc hne 0, Option.getD_some, Nat.zero_add]
  have hv : a = cyc ids ids.length := by
    rw [ha]
    have h3 : ids.length = 0 + ids.length := by omega
    rw [h3, cyc_add_length]
  have hres := splice_invariant hinv1 hne (fresh_not_mem hinv)
    (by rw [alloc_fresh]; omega) (alloc_mem_self h x y) ids.length
    (List.length_pos.mpr hne) (le_refl _) hu hv hie
  rw [List.take_length, List.drop_length] at hres
  obtain ⟨R, M, XY, NX, NY, FR⟩ := hres
  refine ⟨R, rfl, ?_, ?_, ?_, NX, NY, rfl⟩
  · rw [FR, alloc_fresh]
  · intro j hj hjf
    rw [M j hj hjf, alloc_mem_ne h x y j hjf]
  · intro j hjf
    obtain ⟨hx1, hy1⟩ := XY j hjf
    rw [hx1, hy1, alloc_get_ne h x y j hjf]
    exact ⟨rfl, rfl⟩

/-- Case 3a of addNode: an index clamped to 0 (in particular any
negative index on a non-empty list) prepends the new node and makes it
the head. -/
theorem addNode_prepend [Inhabited A] {h : Heap A} {l : CircularLinkedList} {ids : List Nat}
    (hinv : RingInv h l ids) (hne : ids ≠ []) (x y : A) (i : Int) (hle : i ≤ 0) :
    RingInv (addNode h l x y (some i)).1 (addNode h l x y (some i)).2.1 (h.fresh :: ids) ∧
    (addNode h l x y (some i)).2.2 = h.fresh ∧
    (addNode h l x y (some i)).2.1 = ⟨some h.fresh, l.size + 1⟩ ∧
    (addNode h l x y (some i)).1.fresh = h.fresh + 1 ∧
    (∀ j, j ∉ ids → j ≠ h.fresh → (addNode h l x y (some i)).1.mem j = h.mem j) ∧
    (∀ j, j ≠ h.fresh → ((addNode h l x y (some i)).1.get j).x = (h.get j).x ∧
      ((addNode h l x y (some i)).1.get j).y = (h.get j).y) ∧
    ((addNode h l x y (some i)).1.get h.fresh).x = x ∧
    ((addNode h l x y (some i)).1.get h.fresh).y = y := by
  have hsz : l.size ≠ 0 := by
    rw [hinv.size_eq]
    exact fun e => hne (List.length_eq_zero.mp e)
  have hstep : addNode h l x y (some i)
      = (insertAtEnd (h.alloc x y).1 l h.fresh, ⟨some h.fresh, l.size + 1⟩, h.fresh) := by
    simp only [addNode]
    rw [if_neg hsz]
    show ((if (l.size : Int) ≤ i then _ else _ : Heap A × CircularLinkedList).1, _, _) = _
    rw [if_neg (by omega)]
    have h0 : (max 0 i).toNat = 0 := by omega
    rw [h0]
    simp only [insertAtIndex]
    rfl
  rw [hstep]
  have hinv1 : RingInv (h.alloc x y).1 l ids := ringinv_alloc hinv x y
  obtain ⟨a, hhd⟩ : ∃ a, l.head = some a := by
    rw [hinv.head_eq]
    rcases ids with _ | ⟨a, rest⟩
    · exact absurd rfl hne
    · exact ⟨a, rfl⟩
  have ha : a = cyc ids 0 := by
    have h9 := head_getD_eq hinv hne
    rw [hhd] at h9
    exact h9
  have hie : insertAtEnd (h.alloc x y).1 l h.fresh
      = setPrev (setNext (setPrev (setNext (h.alloc x y).1 (prevOf (h.alloc x y).1 a)
          (some h.fresh)) h.fresh (some (prevOf (h.alloc x y).1 a))) h.fresh (some a)) a
          (some h.fresh) := by
    simp only [insertAtEnd, hhd]
  have hu : prevOf (h.alloc x y).1 a = cyc ids (ids.length - 1) := by
    rw [prevOf, ha, hinv1.prev_cyc hne 0, Option.getD_some, Nat.zero_add]
  have hv : a = cyc ids ids.length := by
    rw [ha]
    have h3 : ids.length = 0 + ids.length := by omega
    rw [h3, cyc_add_length]
  have hres := splice_invariant hinv1 hne (fresh_not_mem hinv)
    (by rw [alloc_fresh]; omega) (alloc_mem_self h x y) ids.length
    (List.length_pos.mpr hne) (le_refl _) hu hv hie
  rw [List.take_length, List.drop_length] at hres
  obtain ⟨R, M, XY, NX, NY, FR⟩ := hres
  refine ⟨ringinv_rotate R, rfl, rfl, ?_, ?_, ?_, NX, NY⟩
  · rw [FR, alloc_fresh]
  · intro j hj hjf
    rw [M j hj hjf, alloc_mem_ne h x y j hjf]
  · intro j hjf
    obtain ⟨hx1, hy1⟩ := XY j hjf
    rw [hx1, hy1, alloc_get_ne h x y j hjf]
    exact ⟨rfl, rfl⟩

/-- Case 3b of addNode: a positive in-range index splices the new node
in before the node getNodeAt returns, which keeps the ring valid. -/
theorem addNode_insert [Inhabited A] {h : Heap A} {l : CircularLinkedList} {ids : List Nat}
    (hinv : RingInv h l ids) (hne : ids ≠ []) (x y : A) (i : Int)
    (h1i : 1 ≤ i) (hlt : i < (l.size : Int)) :
    ∃ ids2, RingInv (addNode h l x y (some i)).1 (addNode h l x y (some i)).2.1 ids2 := by
  have hsz : l.size ≠ 0 := by
    rw [hinv.size_eq]
    exact fun e => hne (List.length_eq_zero.mp e)
  have hn : 0 < ids.length := List.length_pos.mpr hne
  have hj0 : (((max 0 i).toNat : Nat) : Int) = i := by omega
  have hjne0 : (max 0 i).toNat ≠ 0 := by omega
  have hstep : addNode h l x y (some i)
      = ((insertAtIndex (h.alloc x y).1 l h.fresh (max 0 i).toNat).1,
        { (insertAtIndex (h.alloc x y).1 l h.fresh (max 0 i).toNat).2 with
            size := l.size + 1 }, h.fresh) := by
    simp only [addNode]
    rw [if_neg hsz]
    show ((if (l.size : Int) ≤ i then _ else _ : Heap A × CircularLinkedList).1, _, _) = _
    rw [if_neg (by omega)]
    rfl
  rw [hstep]
  have hinv1 : RingInv (h.alloc x y).1 l ids := ringinv_alloc hinv x y
  obtain ⟨m, hm, hget⟩ := getNodeAt_valid hinv1 ((max 0 i).toNat : Int) (by omega)
    (by omega)
  have hii : insertAtIndex (h.alloc x y).1 l h.fresh (max 0 i).toNat
      = (setPrev (setNext (setPrev (setNext (h.alloc x y).1 (prevOf (h.alloc x y).1 m)
          (some h.fresh)) h.fresh (some (prevOf (h.alloc x y).1 m))) h.fresh (some m)) m
          (some h.fresh), l) := by
    simp only [insertAtIndex]
    rw [if_neg hjne0, hget]
  obtain ⟨t0, ht0, rfl⟩ := mem_eq_cyc hm
  by_cases h00 : t0 = 0
  · subst h00
    have hu : prevOf (h.alloc x y).1 (cyc ids 0) = cyc ids (ids.length - 1) := by
      rw [prevOf, hinv1.prev_cyc hne 0, Option.getD_some, Nat.zero_add]
    have hv : cyc ids 0 = cyc ids ids.length := by
      have h3 : ids.length = 0 + ids.length := by omega
      rw [h3, cyc_add_length]
    have hres := splice_invariant hinv1 hne (fresh_not_mem hinv)
      (by rw [alloc_fresh]; omega) (alloc_mem_self h x y) ids.length
      (by omega) (le_refl _) hu hv (congrArg Prod.fst hii)
    refine ⟨ids.take ids.length ++ h.fresh :: ids.drop ids.length, ?_⟩
    have R := hres.1
    rw [hii]
    rw [congrArg Prod.fst hii] at R
    exact R
  · have hu : prevOf (h.alloc x y).1 (cyc ids t0) = cyc ids (t0 - 1) := by
      rw [prevOf, hinv1.prev_cyc hne t0, Option.getD_some]
      have h3 : t0 + ids.length - 1 = (t0 - 1) + ids.length := by omega
      rw [h3, cyc_add_length]
    have hres := splice_invariant hinv1 hne (fresh_not_mem hinv)
      (by rw [alloc_fresh]; omega) (alloc_mem_self h x y) t0
      (by omega) (by omega) hu rfl (congrArg Prod.fst hii)
    refine ⟨ids.take t0 ++ h.fresh :: ids.drop t0, ?_⟩
    have R := hres.1
    rw [hii]
    rw [congrArg Prod.fst hii] at R
    exact R

/-- addNode preserves well-formedness for every index argument. -/
theorem addNode_wf [Inhabited A] {h : Heap A} {l : CircularLinkedList} {ids : List Nat}
    (hinv : RingInv h l ids) (x y : A) (idx : Option Int) :
    ∃ ids2, RingInv (addNode h l x y idx).1 (addNode h l x y idx).2.1 ids2 := by
  rcases eq_or_ne l.size 0 with hsz | hsz
  · exact ⟨[h.fresh], (addNode_empty h l hsz x y idx).1⟩
  · have hne : ids ≠ [] := by
      intro e
      rw [hinv.size_eq, e] at hsz
      exact hsz rfl
    rcases idx with _ | i
    · exact ⟨_, (addNode_append hinv hne x y none (Or.inl rfl)).1⟩
    · by_cases hge : (l.size : Int) ≤ i
      · exact ⟨_, (addNode_append hinv hne x y (some i) (Or.inr ⟨i, rfl, hge⟩)).1⟩
      · by_cases hle : i ≤ 0
        · exact ⟨_, (addNode_prepend hinv hne x y i hle).1⟩
        · exact addNode_insert hinv hne x y i (by omega) (by omega)

theorem cyc_del_lt (ids : List Nat) (t i : Nat) (ht : t < ids.length) (hi : i < t) :
    cyc (ids.take t ++ ids.drop (t + 1)) i = cyc ids i := by
  have hlen : (ids.take t ++ ids.drop (t + 1)).length = ids.length - 1 := by simp; omega
  rw [cyc_elem _ i (by rw [hlen]; omega), cyc_elem ids i (by omega)]
  rw [List.getElem_append_left (by simp <;> omega)]
  exact List.getElem_take _

theorem cyc_del_ge (ids : List Nat) (t i : Nat) (ht : t < ids.length) (hti : t ≤ i)
    (hi : i < ids.length - 1) :
    cyc (ids.take t ++ ids.drop (t + 1)) i = cyc ids (i + 1) := by
  have hlen : (ids.take t ++ ids.drop (t + 1)).length = ids.length - 1 := by simp; omega
  rw [cyc_elem _ i (by rw [hlen]; omega), cyc_elem ids (i + 1) (by omega)]
  rw [List.getElem_append_right (by simp <;> omega)]
  have h2 : i - (List.take t ids).length = i - t := by simp; omega
  simp only [h2]
  rw [List.getElem_drop]
  congr 1
  omega

/-- Cyclic indexing at an index equal to the length wraps to index 0. -/
theorem cyc_len (l2 : List Nat) (k : Nat) (hk : k = l2.length) : cyc l2 k = cyc l2 0 := by
  subst hk
  have h2 := cyc_add_length l2 0
  rwa [Nat.zero_add] at h2

theorem head?_eq_cyc (ids : List Nat) (k : Nat) (hk : k < ids.length) :
    (ids.drop k).head? = some (cyc ids k) := by
  rw [cyc_elem ids k hk, List.head?_drop, List.getElem?_eq_getElem hk]

/-- removeNodeByRef of a node of a valid ring yields a valid ring again,
on the id list with that node deleted. -/
theorem remove_invariant [Inhabited A] {h : Heap A} {l : CircularLinkedList} {ids : List Nat}
    (hinv : RingInv h l ids) {nid : Nat} (hm : nid ∈ ids) :
    ∃ ids2, ids2.length = ids.length - 1 ∧
      RingInv (removeNodeByRef h l nid).1 (removeNodeByRef h l nid).2.1 ids2 := by
  have hne : ids ≠ [] := List.ne_nil_of_mem hm
  have hn : 0 < ids.length := List.length_pos.mpr hne
  have hsz0 : l.size ≠ 0 := by rw [hinv.size_eq]; omega
  obtain ⟨t0, ht0, rfl⟩ := mem_eq_cyc hm
  have inj : ∀ i2 j2, i2 < ids.length → j2 < ids.length →
      cyc ids i2 = cyc ids j2 → i2 = j2 := fun _ _ hi hj => cyc_inj hinv.nodup hi hj
  by_cases h1 : ids.length = 1
  · -- a singleton ring collapses to the empty ring
    have hsz1 : l.size = 1 := by rw [hinv.size_eq, h1]
    have hstep : removeNodeByRef h l (cyc ids t0)
        = (setPrev (setNext h (cyc ids t0) none) (cyc ids t0) none,
          ⟨none, l.size - 1⟩, some (cyc ids t0)) := by
      simp only [removeNodeByRef]
      rw [if_neg hsz0, if_pos hsz1]
    rw [hstep]
    refine ⟨[], by simp [h1], ?_, rfl, by simp [hsz1], ?_, ?_⟩
    · simp
    · intro id hid
      simp at hid
    · intro i hi
      simp at hi
  · -- two or more vertices
    have hn2 : 2 ≤ ids.length := by omega
    have hsz1 : l.size ≠ 1 := by rw [hinv.size_eq]; omega
    have hpN : prevOf h (cyc ids t0) = cyc ids (t0 + ids.length - 1) := by
      rw [prevOf, hinv.prev_cyc hne t0, Option.getD_some]
    have hnN : nextOf h (cyc ids t0) = cyc ids (t0 + 1) := by
      rw [nextOf, hinv.next_cyc hne t0, Option.getD_some]
    have cycP : ∀ k, cyc ids (k + ids.length) = cyc ids k := cyc_add_length ids
    have hpnorm : cyc ids (t0 + ids.length - 1)
        = cyc ids (if t0 = 0 then ids.length - 1 else t0 - 1) := by
      by_cases h00 : t0 = 0
      · rw [h00, if_pos rfl]
        congr 1
        omega
      · rw [if_neg h00]
        have e : t0 + ids.length - 1 = (t0 - 1) + ids.length := by omega
        rw [e, cycP]
    have hnnorm : cyc ids (t0 + 1)
        = cyc ids (if t0 = ids.length - 1 then 0 else t0 + 1) := by
      by_cases hlast : t0 = ids.length - 1
      · rw [hlast, if_pos rfl]
        have e : ids.length - 1 + 1 = 0 + ids.length := by omega
        rw [e, cycP]
      · rw [if_neg hlast]
    have hpne : cyc ids (t0 + ids.length - 1) ≠ cyc ids t0 := by
      rw [hpnorm]
      intro e
      have := inj _ t0 (by split <;> omega) ht0 e
      by_cases h00 : t0 = 0 <;> simp [h00] at this <;> omega
    have hnne : cyc ids (t0 + 1) ≠ cyc ids t0 := by
      rw [hnnorm]
      intro e
      have := inj _ t0 (by split <;> omega) ht0 e
      by_cases hlast : t0 = ids.length - 1 <;> simp [hlast] at this <;> omega
    have hstep : removeNodeByRef h l (cyc ids t0)
        = (setPrev (setNext (setPrev (setNext h (prevOf h (cyc ids t0))
            (some (nextOf h (cyc ids t0)))) (nextOf h (cyc ids t0))
            (some (prevOf h (cyc ids t0)))) (cyc ids t0) none) (cyc ids t0) none,
          ⟨if l.head = some (cyc ids t0) then some (nextOf h (cyc ids t0)) else l.head,
            l.size - 1⟩, some (cyc ids t0)) := by
      simp only [removeNodeByRef]
      rw [if_neg hsz0, if_neg hsz1]
      by_cases hhd : l.head = some (cyc ids t0)
      · rw [if_pos hhd, if_pos hhd]
      · rw [if_neg hhd, if_neg hhd]
    rw [hstep, hpN, hnN]
    -- heap facts about the written heap
    set H := setPrev (setNext (setPrev (setNext h (cyc ids (t0 + ids.length - 1))
      (some (cyc ids (t0 + 1)))) (cyc ids (t0 + 1))
      (some (cyc ids (t0 + ids.length - 1)))) (cyc ids t0) none) (cyc ids t0) none with hH
    have G1 : ∀ j, j ≠ cyc ids (t0 + ids.length - 1) → j ≠ cyc ids t0 →
        (H.get j).next = (h.get j).next := by
      intro j hjp hjn
      rw [hH]
      simp only [get_setPrev, get_setNext]
      by_cases hjN : j = cyc ids (t0 + 1)
      · subst hjN; simp [hjp, hjn]
      · simp [hjp, hjn, hjN]
    have G2 : ∀ j, j ≠ cyc ids (t0 + 1) → j ≠ cyc ids t0 →
        (H.get j).prev = (h.get j).prev := by
      intro j hjN hjn
      rw [hH]
      simp only [get_setPrev, get_setNext]
      by_cases hjp : j = cyc ids (t0 + ids.length - 1)
      · subst hjp; simp [hjN, hjn]
      · simp [hjp, hjn, hjN]
    have G3 : (H.get (cyc ids (t0 + ids.length - 1))).next = some (cyc ids (t0 + 1)) := by
      rw [hH]
      simp only [get_setPrev, get_setNext]
      by_cases hpn : cyc ids (t0 + ids.length - 1) = cyc ids (t0 + 1)
      · rw [← hpn]
        simp [hpne]
      · simp [hpne, hpn]
    have G4 : (H.get (cyc ids (t0 + 1))).prev = some (cyc ids (t0 + ids.length - 1)) := by
      rw [hH]
      simp only [get_setPrev, get_setNext]
      simp [hnne]
    have G5 : ∀ j, (h.mem j).isSome → (H.mem j).isSome := by
      intro j hj
      rw [hH]
      simp only [setPrev, setNext, Heap.isSome_mem_write]
      by_cases e1 : j = cyc ids t0
      · exact Or.inl e1
      · by_cases e2 : j = cyc ids (t0 + 1)
        · exact Or.inr (Or.inr (Or.inl e2))
        · by_cases e3 : j = cyc ids (t0 + ids.length - 1)
          · exact Or.inr (Or.inr (Or.inr (Or.inl e3)))
          · exact Or.inr (Or.inr (Or.inr (Or.inr hj)))
    have GF : H.fresh = h.fresh := by rw [hH]; rfl
    -- the new description
    refine ⟨ids.take t0 ++ ids.drop (t0 + 1), by simp; omega, ?_⟩
    have hsub : (ids.take t0 ++ ids.drop (t0 + 1)).Sublist ids := by
      have e : ids.take t0 ++ ids.drop t0 = ids := List.take_append_drop t0 ids
      have e2 : (ids.drop t0).drop 1 = ids.drop (t0 + 1) := by
        rw [List.drop_drop]
      have s1 : (ids.take t0 ++ (ids.drop t0).drop 1).Sublist (ids.take t0 ++ ids.drop t0) :=
        ((ids.drop t0).drop_sublist 1).append_left _
      rw [e2, e] at s1
      exact s1
    have hlen2 : (ids.take t0 ++ ids.drop (t0 + 1)).length = ids.length - 1 := by
      simp; omega
    refine ⟨hinv.nodup.sublist hsub, ?_, ?_, ?_, ?_⟩
    · -- head
      have hhd0 : l.head = some (cyc ids 0) := by
        rw [hinv.head_eq]
        rcases ids with _ | ⟨a, rest⟩
        · exact absurd rfl hne
        · simp [cyc]
      by_cases h00 : t0 = 0
      · subst h00
        rw [if_pos hhd0]
        show some (cyc ids (0 + 1)) = _
        simp only [Nat.zero_add, List.take_zero, List.nil_append]
        rw [head?_eq_cyc ids 1 (by omega)]
      · have hhdne : l.head ≠ some (cyc ids t0) := by
          rw [hhd0]
          intro e
          have e2 : cyc ids 0 = cyc ids t0 := by injection e
          have := inj 0 t0 (by omega) ht0 e2
          omega
        rw [if_neg hhdne, hhd0]
        have htk : (ids.take t0).head? = some (cyc ids 0) := by
          rcases ids with _ | ⟨a, rest⟩
          · exact absurd rfl hne
          · rcases t0 with _ | t1
            · exact absurd rfl h00
            · simp [cyc]
        rw [List.head?_append, htk]
        rfl
    · -- size
      show l.size - 1 = _
      rw [hinv.size_eq, hlen2]
    · -- membership
      intro id hid
      have hid2 : id ∈ ids := hsub.subset hid
      rw [GF]
      exact ⟨G5 id (hinv.isSome hid2), hinv.lt_fresh hid2⟩
    · -- pointer chain
      intro i hi
      rw [hlen2] at hi
      have hne_nid : ∀ a, a < ids.length → a ≠ t0 → cyc ids a ≠ cyc ids t0 :=
        fun a ha hat e => hat (inj a t0 ha ht0 e)
      have hne_p : ∀ a, a < ids.length →
          a ≠ (if t0 = 0 then ids.length - 1 else t0 - 1) →
          cyc ids a ≠ cyc ids (t0 + ids.length - 1) := by
        intro a ha hat e
        rw [hpnorm] at e
        exact hat (inj a _ ha (by split <;> omega) e)
      have hne_n : ∀ a, a < ids.length →
          a ≠ (if t0 = ids.length - 1 then 0 else t0 + 1) →
          cyc ids a ≠ cyc ids (t0 + 1) := by
        intro a ha hat e
        rw [hnnorm] at e
        exact hat (inj a _ ha (by split <;> omega) e)
      constructor
      · -- next pointers
        by_cases hlt0 : i < t0
        · rw [cyc_del_lt ids t0 i (by omega) hlt0]
          by_cases hip : i = t0 - 1
          · subst hip
            have hep : cyc ids (t0 - 1) = cyc ids (t0 + ids.length - 1) := by
              rw [hpnorm, if_neg (by omega)]
            rw [hep, G3]
            have e1 : t0 - 1 + 1 = t0 := by omega
            rw [e1]
            by_cases hlast : t0 < ids.length - 1
            · rw [cyc_del_ge ids t0 t0 (by omega) (le_refl _) hlast]
            · rw [cyc_len (ids.take t0 ++ ids.drop (t0 + 1)) t0 (by rw [hlen2]; omega)]
              rw [cyc_del_lt ids t0 0 (by omega) (by omega)]
              rw [cyc_len ids (t0 + 1) (by omega)]
          · have h2 : cyc ids i ≠ cyc ids (t0 + ids.length - 1) := by
              apply hne_p i (by omega)
              rw [if_neg (show ¬t0 = 0 by omega)]
              exact hip
            have h3 : cyc ids i ≠ cyc ids t0 := hne_nid i (by omega) (by omega)
            rw [G1 _ h2 h3, hinv.next_cyc hne i,
              cyc_del_lt ids t0 (i + 1) (by omega) (by omega)]
        · push_neg at hlt0
          rw [cyc_del_ge ids t0 i (by omega) hlt0 (by omega)]
          by_cases hip : t0 = 0 ∧ i = ids.length - 2
          · obtain ⟨h00, hieq⟩ := hip
            have hep : cyc ids (i + 1) = cyc ids (t0 + ids.length - 1) := by
              rw [hpnorm, if_pos h00]
              congr 1
              omega
            rw [hep, G3]
            rw [cyc_len (ids.take t0 ++ ids.drop (t0 + 1)) (i + 1) (by rw [hlen2]; omega)]
            rw [cyc_del_ge ids t0 0 (by omega) (by omega) (by omega), h00]
          · have h3 : cyc ids (i + 1) ≠ cyc ids t0 := hne_nid (i + 1) (by omega) (by omega)
            have h2 : cyc ids (i + 1) ≠ cyc ids (t0 + ids.length - 1) := by
              apply hne_p (i + 1) (by omega)
              by_cases h00 : t0 = 0
              · rw [if_pos h00]
                intro e
                exact hip ⟨h00, by omega⟩
              · rw [if_neg h00]
                omega
            rw [G1 _ h2 h3, hinv.next_cyc hne (i + 1)]
            by_cases hlast : i + 1 < ids.length - 1
            · rw [cyc_del_ge ids t0 (i + 1) (by omega) (by omega) hlast]
            · have h00 : t0 ≠ 0 := fun e => hip ⟨e, by omega⟩
              rw [cyc_len (ids.take t0 ++ ids.drop (t0 + 1)) (i + 1) (by rw [hlen2]; omega)]
              rw [cyc_del_lt ids t0 0 (by omega) (by omega)]
              rw [cyc_len ids (i + 1 + 1) (by omega)]
      · -- prev pointers
        by_cases hi0 : i = 0
        · subst hi0
          have e0 : 0 + (ids.take t0 ++ ids.drop (t0 + 1)).length - 1
              = ids.length - 2 := by rw [hlen2]; omega
          rw [e0]
          by_cases h00 : t0 = 0
          · rw [cyc_del_ge ids t0 0 (by omega) (by omega) (by omega)]
            have hen : cyc ids (0 + 1) = cyc ids (t0 + 1) := by rw [h00]
            rw [hen, G4, cyc_del_ge ids t0 (ids.length - 2) (by omega) (by omega)
              (by omega)]
            have eidx : t0 + ids.length - 1 = ids.length - 2 + 1 := by omega
            rw [eidx]
          · rw [cyc_del_lt ids t0 0 (by omega) (by omega)]
            by_cases hlast : t0 = ids.length - 1
            · have hen : cyc ids 0 = cyc ids (t0 + 1) := by rw [hnnorm, if_pos hlast]
              rw [hen, G4, hpnorm, if_neg h00,
                cyc_del_lt ids t0 (ids.length - 2) (by omega) (by omega)]
              have eidx : t0 - 1 = ids.length - 2 := by omega
              rw [eidx]
            · have h4 : cyc ids 0 ≠ cyc ids (t0 + 1) := by
                apply hne_n 0 (by omega)
                rw [if_neg hlast]
                omega
              have h3 : cyc ids 0 ≠ cyc ids t0 := hne_nid 0 (by omega) (by omega)
              rw [G2 _ h4 h3, hinv.prev_cyc hne 0,
                cyc_del_ge ids t0 (ids.length - 2) (by omega) (by omega) (by omega)]
              have eidx : 0 + ids.length - 1 = ids.length - 2 + 1 := by omega
              rw [eidx]
        · have e0 : i + (ids.take t0 ++ ids.drop (t0 + 1)).length - 1
              = (i - 1) + (ids.take t0 ++ ids.drop (t0 + 1)).length := by
            rw [hlen2]; omega
          rw [e0, cyc_add_length]
          by_cases hlt0 : i < t0
          · rw [cyc_del_lt ids t0 i (by omega) hlt0]
            have h4 : cyc ids i ≠ cyc ids (t0 + 1) := by
              apply hne_n i (by omega)
              split <;> omega
            have h3 : cyc ids i ≠ cyc ids t0 := hne_nid i (by omega) (by omega)
            rw [G2 _ h4 h3, hinv.prev_cyc hne i,
              cyc_del_lt ids t0 (i - 1) (by omega) (by omega)]
            have e3 : i + ids.length - 1 = (i - 1) + ids.length := by omega
            rw [e3, cycP]
          · push_neg at hlt0
            by_cases hit : i = t0
            · rw [cyc_del_ge ids t0 i (by omega) hlt0 (by omega)]
              have hen : cyc ids (i + 1) = cyc ids (t0 + 1) := by rw [hit]
              rw [hen, G4, hpnorm, if_neg (by omega)]
              rw [cyc_del_lt ids t0 (i - 1) (by omega) (by omega)]
              have eidx : t0 - 1 = i - 1 := by omega
              rw [eidx]
            · rw [cyc_del_ge ids t0 i (by omega) hlt0 (by omega)]
              have h4 : cyc ids (i + 1) ≠ cyc ids (t0 + 1) := by
                apply hne_n (i + 1) (by omega)
                split <;> omega
              have h3 : cyc ids (i + 1) ≠ cyc ids t0 :=
                hne_nid (i + 1) (by omega) (by omega)
              rw [G2 _ h4 h3, hinv.prev_cyc hne (i + 1),
                cyc_del_ge ids t0 (i - 1) (by omega) (by omega) (by omega)]
              have e3 : i + 1 + ids.length - 1 = (i - 1 + 1) + ids.length := by omega
              rw [e3, cycP]

/-- The pointer swap performed at each vertex by reverse. -/
def swapNode (n : ListNode A) : ListNode A := { n with next := n.prev, prev := n.next }

/-- One step of the reverse loop as a heap transformer. -/
def swap1 [Inhabited A] (h : Heap A) (i : Nat) : Heap A := h.write i (swapNode (h.get i))

theorem chain'_prevOf_congr [Inhabited A] {h h2 : Heap A} :
    ∀ (ds : List Nat), (∀ a ∈ ds, prevOf h2 a = prevOf h a) →
    List.Chain' (fun a b => prevOf h a = b) ds →
    List.Chain' (fun a b => prevOf h2 a = b) ds := by
  intro ds
  induction ds with
  | nil => intro _ _; exact List.chain'_nil
  | cons a t ih =>
    intro hmem hch
    rw [List.chain'_cons']
    rw [List.chain'_cons'] at hch
    refine ⟨?_, ih (fun b hb => hmem b (List.mem_cons_of_mem a hb)) hch.2⟩
    intro b hb
    rw [hmem a (List.mem_cons_self a t)]
    exact hch.1 b hb

/-- The reverse loop, run along the prev-chain it actually follows,
equals the batch swap of the visited nodes. -/
theorem revLoop_eq_foldl [Inhabited A] :
    ∀ (rest : List Nat) (d : Nat) (h : Heap A), (d :: rest).Nodup →
    List.Chain' (fun a b => prevOf h a = b) (d :: rest) →
    revLoop h d (rest.length + 1) = (d :: rest).foldl swap1 h := by
  intro rest
  induction rest with
  | nil =>
    intro d h _ _
    rfl
  | cons e rest2 ih =>
    intro d h hnd hch
    have hdnot : d ∉ e :: rest2 := (List.nodup_cons.mp hnd).1
    show revLoop h d ((e :: rest2).length + 1) = _
    have hlen : (e :: rest2).length + 1 = rest2.length + 1 + 1 := by simp
    rw [hlen]
    have hstep : revLoop h d (rest2.length + 1 + 1)
        = revLoop (swap1 h d) (nextOf (swap1 h d) d) (rest2.length + 1) := rfl
    have hnext : nextOf (swap1 h d) d = e := by
      rw [List.chain'_cons] at hch
      rw [nextOf, swap1, Heap.get_write_self]
      show ((h.get d).prev).getD 0 = e
      rw [← prevOf]
      exact hch.1
    rw [hstep, hnext]
    have hch2 : List.Chain' (fun a b => prevOf (swap1 h d) a = b) (e :: rest2) := by
      refine @chain'_prevOf_congr A _ h (swap1 h d) (e :: rest2) ?_ ?_
      · intro a ha
        have had : a ≠ d := by
          intro e2
          rw [e2] at ha
          exact hdnot ha
        rw [prevOf, prevOf, swap1, Heap.get_write_ne _ _ _ _ had]
      · rw [List.chain'_cons] at hch
        exact hch.2
    rw [ih e (swap1 h d) (List.Nodup.of_cons hnd) hch2]
    rfl

/-- Folding the swap over distinct live ids swaps exactly those nodes. -/
theorem foldl_swap_mem [Inhabited A] :
    ∀ (ds : List Nat) (h : Heap A), ds.Nodup → (∀ j ∈ ds, (h.mem j).isSome) →
    (∀ j ∈ ds, (ds.foldl swap1 h).mem j = (h.mem j).map swapNode) ∧
    (∀ j, j ∉ ds → (ds.foldl swap1 h).mem j = h.mem j) ∧
    (ds.foldl swap1 h).fresh = h.fresh := by
  intro ds
  induction ds with
  | nil => exact fun h _ _ => ⟨fun j hj => absurd hj (List.not_mem_nil j), fun j _ => rfl, rfl⟩
  | cons d rest ih =>
    intro h hnd hsome
    have hdnot : d ∉ rest := (List.nodup_cons.mp hnd).1
    have hsome2 : ∀ j ∈ rest, ((swap1 h d).mem j).isSome := by
      intro j hj
      have hjd : j ≠ d := fun e => hdnot (e ▸ hj)
      rw [swap1, Heap.mem_write, if_neg hjd]
      exact hsome j (List.mem_cons_of_mem d hj)
    obtain ⟨IH1, IH2, IH3⟩ := ih (swap1 h d) (List.Nodup.of_cons hnd) hsome2
    have hfold : (d :: rest).foldl swap1 h = rest.foldl swap1 (swap1 h d) := rfl
    refine ⟨?_, ?_, ?_⟩
    · intro j hj
      rcases List.mem_cons.mp hj with rfl | hj2
      · rw [hfold, IH2 j hdnot, swap1, Heap.mem_write, if_pos rfl]
        obtain ⟨n, hn⟩ := Option.isSome_iff_exists.mp (hsome j (List.mem_cons_self j rest))
        rw [Heap.get_eq_of_mem h j n hn, hn]
        rfl
      · have hjd : j ≠ d := fun e => hdnot (e ▸ hj2)
        rw [hfold, IH1 j hj2, swap1, Heap.mem_write, if_neg hjd]
    · intro j hj
      have hjd : j ≠ d := fun e => hj (e ▸ List.mem_cons_self d rest)
      have hjr : j ∉ rest := fun e => hj (List.mem_cons_of_mem d e)
      rw [hfold, IH2 j hjr, swap1, Heap.mem_write, if_neg hjd]
    · rw [hfold, IH3]
      rfl

theorem cyc_reverse (ids : List Nat) (i : Nat) (hi : i < ids.length) :
    cyc ids.reverse i = cyc ids (ids.length - 1 - i) := by
  rw [cyc_elem _ i (by simpa using hi), cyc_elem ids _ (by omega)]
  rw [List.getElem_reverse]

/-- The id sequence the reverse loop visits: starting at i and stepping
through prev pointers of the original heap. -/
def prevWalk [Inhabited A] (h : Heap A) (i : Nat) : Nat → List Nat
  | 0 => []
  | k + 1 => i :: prevWalk h (prevOf h i) k

theorem prevWalk_chain [Inhabited A] (h : Heap A) :
    ∀ (k : Nat) (i : Nat), List.Chain' (fun a b => prevOf h a = b) (prevWalk h i k) := by
  intro k
  induction k with
  | zero => intro i; exact List.chain'_nil
  | succ k ih =>
    intro i
    rw [prevWalk, List.chain'_cons']
    refine ⟨?_, ih (prevOf h i)⟩
    intro b hb
    rcases k with _ | k2
    · simp [prevWalk] at hb
    · rw [prevWalk] at hb
      simp at hb
      omega

theorem prevWalk_congr [Inhabited A] {h h2 : Heap A} :
    ∀ (k : Nat) (i : Nat), (∀ j ∈ prevWalk h i k, prevOf h2 j = prevOf h j) →
    prevWalk h2 i k = prevWalk h i k := by
  intro k
  induction k with
  | zero => intro i _; rfl
  | succ k ih =>
    intro i hag
    rw [prevWalk, prevWalk]
    have hself : prevOf h2 i = prevOf h i :=
      hag i (by rw [prevWalk]; exact List.mem_cons_self _ _)
    rw [hself]
    congr 1
    apply ih
    intro j hj
    exact hag j (by rw [prevWalk]; exact List.mem_cons_of_mem _ hj)

/-- The reverse loop equals the batch swap over its prev-walk, provided
the walk visits distinct nodes. -/
theorem revLoop_eq_foldl_walk [Inhabited A] :
    ∀ (k : Nat) (h : Heap A) (i : Nat), (prevWalk h i k).Nodup →
    revLoop h i k = (prevWalk h i k).foldl swap1 h := by
  intro k
  induction k with
  | zero => intro h i _; rfl
  | succ k ih =>
    intro h i hnd
    have hstep : revLoop h i (k + 1)
        = revLoop (swap1 h i) (nextOf (swap1 h i) i) k := rfl
    have hnext : nextOf (swap1 h i) i = prevOf h i := by
      rw [nextOf, swap1, Heap.get_write_self]
      rfl
    rw [prevWalk] at hnd
    have hinot : i ∉ prevWalk h (prevOf h i) k := (List.nodup_cons.mp hnd).1
    have hwalk2 : prevWalk (swap1 h i) (prevOf h i) k = prevWalk h (prevOf h i) k := by
      apply prevWalk_congr
      intro j hj
      have hji : j ≠ i := fun e => hinot (e ▸ hj)
      rw [prevOf, prevOf, swap1, Heap.get_write_ne _ _ _ _ hji]
    rw [hstep, hnext, prevWalk]
    show _ = (prevWalk h (prevOf h i) k).foldl swap1 (swap1 h i)
    rw [← hwalk2]
    exact ih (swap1 h i) (prevOf h i) (by rw [hwalk2]; exact (List.nodup_cons.mp hnd).2)

/-- On a valid ring the prev-walk is a stride of cyclic indices. -/
theorem prevWalk_cyc [Inhabited A] {h : Heap A} {l : CircularLinkedList} {ids : List Nat}
    (hinv : RingInv h l ids) (hne : ids ≠ []) :
    ∀ (k m : Nat), prevWalk h (cyc ids m) k
      = (List.range k).map (fun s => cyc ids (m + s * (ids.length - 1))) := by
  intro k
  induction k with
  | zero => intro m; rfl
  | succ k ih =>
    intro m
    have hp : prevOf h (cyc ids m) = cyc ids (m + ids.length - 1) := by
      rw [prevOf, hinv.prev_cyc hne m, Option.getD_some]
    rw [prevWalk, hp, ih (m + ids.length - 1), List.range_succ_eq_map]
    simp only [List.map_cons, List.map_map]
    congr 1
    · congr 1
      omega
    · apply List.map_congr_left
      intro s hs
      simp only [Function.comp_apply]
      congr 1
      have hn : 0 < ids.length := List.length_pos.mpr hne
      have e1 : Nat.succ s * (ids.length - 1) = s * (ids.length - 1) + (ids.length - 1) := by
        rw [Nat.succ_mul]
      omega

theorem stride_mod (n s : Nat) (hn : 0 < n) (hs : s < n) :
    (s * (n - 1)) % n = if s = 0 then 0 else n - s := by
  rcases Nat.eq_zero_or_pos s with rfl | hpos
  · simp
  · rw [if_neg (by omega)]
    have e3 : s * (n - 1) = s * n - s := by
      rcases n with _ | m
      · omega
      · have e4 : s * (m + 1) = s * m + s := Nat.mul_succ s m
        simp only [Nat.succ_sub_one]
        omega
    have e2 : s * n = (s - 1) * n + n := by
      rcases s with _ | s2
      · omega
      · rw [Nat.succ_sub_one, Nat.succ_mul]
    have e1 : s * (n - 1) = (s - 1) * n + (n - s) := by omega
    rw [e1, Nat.add_comm, Nat.add_mul_mod_self_right, Nat.mod_eq_of_lt (by omega)]

/-- reverse on a ring of at least two vertices swaps the pointers of
every vertex, moves head to the old head's former prev (the old tail),
and reverses the description list. -/
theorem reverse_swap [Inhabited A] {h : Heap A} {l : CircularLinkedList} {ids : List Nat}
    (hinv : RingInv h l ids) (hsz : 2 ≤ l.size) :
    RingInv (reverse h l).1 (reverse h l).2 ids.reverse ∧
    (∀ id ∈ ids, (reverse h l).1.mem id = (h.mem id).map swapNode) ∧
    (∀ j, j ∉ ids → (reverse h l).1.mem j = h.mem j) ∧
    (reverse h l).2.head = (h.get (l.head.getD 0)).prev ∧
    (reverse h l).2.size = l.size := by
  have hn2 : 2 ≤ ids.length := hinv.size_eq ▸ hsz
  have hne : ids ≠ [] := by
    intro e
    rw [e] at hn2
    simp at hn2
  have hd0 : l.head.getD 0 = cyc ids 0 := head_getD_eq hinv hne
  have hstep : reverse h l = (revLoop h (l.head.getD 0) l.size,
      { l with head := ((revLoop h (l.head.getD 0) l.size).get (l.head.getD 0)).next }) := by
    simp only [reverse]
    rw [if_neg (by omega)]
  have hwalk : prevWalk h (cyc ids 0) ids.length
      = (List.range ids.length).map (fun s => cyc ids (s * (ids.length - 1))) := by
    rw [prevWalk_cyc hinv hne]
    apply List.map_congr_left
    intro s _
    congr 1
    omega
  have hmodidx : ∀ s, s < ids.length → cyc ids (s * (ids.length - 1))
      = cyc ids (if s = 0 then 0 else ids.length - s) := by
    intro s hs
    rw [← cyc_mod, stride_mod ids.length s (by omega) hs]
  have hndwalk : (prevWalk h (cyc ids 0) ids.length).Nodup := by
    rw [hwalk]
    apply List.Nodup.map_on ?_ (List.nodup_range _)
    intro s hs r hr heq
    rw [List.mem_range] at hs hr
    rw [hmodidx s hs, hmodidx r hr] at heq
    have h5 := cyc_inj hinv.nodup (by split <;> omega) (by split <;> omega) heq
    split_ifs at h5 <;> omega
  have hmemwalk : ∀ j, j ∈ prevWalk h (cyc ids 0) ids.length ↔ j ∈ ids := by
    intro j
    rw [hwalk]
    constructor
    · intro hj
      rw [List.mem_map] at hj
      obtain ⟨s, _, rfl⟩ := hj
      exact cyc_mem ids hne _
    · intro hj
      obtain ⟨t0, ht0, rfl⟩ := mem_eq_cyc hj
      rw [List.mem_map]
      refine ⟨if t0 = 0 then 0 else ids.length - t0, ?_, ?_⟩
      · rw [List.mem_range]
        split <;> omega
      · rw [hmodidx _ (by split <;> omega)]
        congr 1
        split_ifs <;> omega
  have hrl : revLoop h (l.head.getD 0) l.size
      = (prevWalk h (cyc ids 0) ids.length).foldl swap1 h := by
    rw [hd0, hinv.size_eq]
    exact revLoop_eq_foldl_walk _ h _ hndwalk
  obtain ⟨F1, F2, F3⟩ := foldl_swap_mem (prevWalk h (cyc ids 0) ids.length) h hndwalk
    (fun j hj => hinv.isSome ((hmemwalk j).mp hj))
  have M1 : ∀ id ∈ ids, ((prevWalk h (cyc ids 0) ids.length).foldl swap1 h).mem id
      = (h.mem id).map swapNode := fun id hid => F1 id ((hmemwalk id).mpr hid)
  have M2 : ∀ j, j ∉ ids → ((prevWalk h (cyc ids 0) ids.length).foldl swap1 h).mem j
      = h.mem j := fun j hj => F2 j (fun e => hj ((hmemwalk j).mp e))
  have Mget : ∀ id ∈ ids, ((prevWalk h (cyc ids 0) ids.length).foldl swap1 h).get id
      = swapNode (h.get id) := by
    intro id hid
    obtain ⟨n0, hn0⟩ := Option.isSome_iff_exists.mp (hinv.isSome hid)
    rw [Heap.get_eq_of_mem _ id (swapNode n0) (by rw [M1 id hid, hn0]; rfl),
      Heap.get_eq_of_mem h id n0 hn0]
  have hrevlen : (ids.reverse).length = ids.length := List.length_reverse ids
  have hrevhd : (ids.reverse).head? = some (cyc ids (ids.length - 1)) := by
    have h6 := head?_eq_cyc ids.reverse 0 (by rw [hrevlen]; omega)
    rw [List.drop_zero] at h6
    rw [h6, cyc_reverse ids 0 (by omega)]
    have e9 : ids.length - 1 - 0 = ids.length - 1 := by omega
    rw [e9]
  rw [hstep, hrl, hd0]
  refine ⟨⟨List.nodup_reverse.mpr hinv.nodup, ?_, ?_, ?_, ?_⟩, M1, M2, ?_, rfl⟩
  · -- head
    show ((_ : Heap A).get (cyc ids 0)).next = _
    rw [Mget _ (cyc_mem ids hne 0)]
    show (h.get (cyc ids 0)).prev = _
    rw [hinv.prev_cyc hne 0, hrevhd]
    have e1 : 0 + ids.length - 1 = ids.length - 1 := by omega
    rw [e1]
  · -- size
    show l.size = _
    rw [hrevlen, hinv.size_eq]
  · -- live ids
    intro id hid
    have hid2 : id ∈ ids := List.mem_reverse.mp hid
    constructor
    · rw [M1 id hid2]
      obtain ⟨n0, hn0⟩ := Option.isSome_iff_exists.mp (hinv.isSome hid2)
      rw [hn0]
      rfl
    · rw [F3]
      exact hinv.lt_fresh hid2
  · -- pointer chain
    intro i hi
    rw [hrevlen] at hi
    have hnode : cyc ids.reverse i = cyc ids (ids.length - 1 - i) :=
      cyc_reverse ids i hi
    have hmem2 : cyc ids (ids.length - 1 - i) ∈ ids := cyc_mem ids hne _
    constructor
    · -- next pointers
      rw [hnode, Mget _ hmem2]
      show (h.get _).prev = _
      rw [hinv.prev_cyc hne (ids.length - 1 - i)]
      by_cases hlast : i < ids.length - 1
      · rw [cyc_reverse ids (i + 1) (by omega)]
        have e1 : ids.length - 1 - i + ids.length - 1
            = (ids.length - 1 - (i + 1)) + ids.length := by omega
        rw [e1, cyc_add_length]
      · rw [cyc_len ids.reverse (i + 1) (by rw [hrevlen]; omega),
          cyc_reverse ids 0 (by omega)]
        have e1 : ids.length - 1 - i + ids.length - 1 = ids.length - 1 - 0 := by omega
        rw [e1]
    · -- prev pointers
      rw [hnode, Mget _ hmem2]
      show (h.get _).next = _
      rw [hinv.next_cyc hne (ids.length - 1 - i)]
      by_cases hi0 : i = 0
      · subst hi0
        have e0 : 0 + (ids.reverse).length - 1 = ids.length - 1 := by
          rw [hrevlen]; omega
        rw [e0, cyc_reverse ids (ids.length - 1) (by omega)]
        have e1 : ids.length - 1 - 0 + 1 = 0 + ids.length := by omega
        rw [e1, cyc_add_length]
        have e2 : ids.length - 1 - (ids.length - 1) = 0 := by omega
        rw [e2]
      · have e0 : i + (ids.reverse).length - 1 = (i - 1) + (ids.reverse).length := by
          rw [hrevlen]; omega
        rw [e0, cyc_add_length, cyc_reverse ids (i - 1) (by omega)]
        have e2 : ids.length - 1 - i + 1 = ids.length - 1 - (i - 1) := by omega
        rw [e2]
  · -- head pointer value
    show ((_ : Heap A).get (cyc ids 0)).next = _
    rw [Mget _ (cyc_mem ids hne 0)]
    rfl

/-- The validate walk succeeds along a valid ring of at least two
vertices. -/
theorem vloop_ok [Inhabited A] {h : Heap A} {l : CircularLinkedList} {ids : List Nat}
    (hinv : RingInv h l ids) (hn2 : 2 ≤ ids.length) :
    ∀ (m k fuel : Nat), k < ids.length → m = ids.length - 1 - k → m < fuel →
    vLoop h (cyc ids 0) ids.length fuel (cyc ids k) k = true := by
  have hne : ids ≠ [] := by
    intro e
    rw [e] at hn2
    simp at hn2
  intro m
  induction m with
  | zero =>
    intro k fuel hk hm hf
    rcases fuel with _ | fuel2
    · omega
    have hnext := hinv.next_cyc hne k
    have hprev := hinv.prev_cyc hne k
    have c1 : (h.get (cyc ids (k + 1))).prev = some (cyc ids k) := by
      rw [hinv.prev_cyc hne (k + 1)]
      have e : k + 1 + ids.length - 1 = k + ids.length := by omega
      rw [e, cyc_add_length]
    have c2 : (h.get (cyc ids (k + ids.length - 1))).next = some (cyc ids k) := by
      rw [hinv.next_cyc hne (k + ids.length - 1)]
      have e : k + ids.length - 1 + 1 = k + ids.length := by omega
      rw [e, cyc_add_length]
    simp only [vLoop, hnext, hprev]
    rw [c1, if_neg (fun hc => hc rfl), c2, if_neg (fun hc => hc rfl),
      if_neg (by omega)]
    have hwrap : cyc ids (k + 1) = cyc ids 0 := by
      rw [show k + 1 = ids.length from by omega]
      exact cyc_len ids _ rfl
    rw [if_pos hwrap]
    simp [show k + 1 = ids.length from by omega]
  | succ m ih =>
    intro k fuel hk hm hf
    rcases fuel with _ | fuel2
    · omega
    have hnext := hinv.next_cyc hne k
    have hprev := hinv.prev_cyc hne k
    have c1 : (h.get (cyc ids (k + 1))).prev = some (cyc ids k) := by
      rw [hinv.prev_cyc hne (k + 1)]
      have e : k + 1 + ids.length - 1 = k + ids.length := by omega
      rw [e, cyc_add_length]
    have c2 : (h.get (cyc ids (k + ids.length - 1))).next = some (cyc ids k) := by
      rw [hinv.next_cyc hne (k + ids.length - 1)]
      have e : k + ids.length - 1 + 1 = k + ids.length := by omega
      rw [e, cyc_add_length]
    simp only [vLoop, hnext, hprev]
    rw [c1, if_neg (fun hc => hc rfl), c2, if_neg (fun hc => hc rfl),
      if_neg (by omega)]
    have hnw : cyc ids (k + 1) ≠ cyc ids 0 := by
      intro e
      have := cyc_inj hinv.nodup (i := k + 1) (j := 0) (by omega) (by omega) e
      omega
    rw [if_neg hnw]
    exact ih (k + 1) fuel2 (by omega) (by omega) (by omega)

/-- The validate check of CircularLinkedList.ts accepts every valid
ring. -/
theorem validate_of_inv [Inhabited A] {h : Heap A} {l : CircularLinkedList} {ids : List Nat}
    (hinv : RingInv h l ids) : validate h l = true := by
  rcases hids : ids with _ | ⟨a, rest⟩
  · have hsz : l.size = 0 := by rw [hinv.size_eq, hids]; rfl
    have hhd : l.head = none := by rw [hinv.head_eq, hids]; rfl
    rw [validate, if_pos hsz, hhd]
    rfl
  · rcases hrest : rest with _ | ⟨b, rest2⟩
    · -- size one
      have hsz : l.size = 1 := by rw [hinv.size_eq, hids, hrest]; rfl
      have hhd : l.head = some a := by rw [hinv.head_eq, hids]; rfl
      have hnx := hinv.next_cyc (by rw [hids]; simp) 0
      have hpv := hinv.prev_cyc (by rw [hids]; simp) 0
      rw [hids, hrest] at hnx hpv
      simp [cyc] at hnx hpv
      rw [validate, if_neg (by omega), if_pos hsz, hhd]
      simp [hnx, hpv]
    · -- size at least two
      have hn2 : 2 ≤ ids.length := by rw [hids, hrest]; simp
      have hne : ids ≠ [] := by rw [hids]; simp
      have hszeq : l.size = ids.length := hinv.size_eq
      have hd0 : l.head.getD 0 = cyc ids 0 := head_getD_eq hinv hne
      rw [validate, if_neg (by omega), if_neg (by omega), hd0, hszeq]
      exact vloop_ok hinv hn2 (ids.length - 1) 0 (ids.length + 2) (by omega) (by omega)
        (by omega)

/-- The empty list satisfies the invariant with the empty id list. -/
theorem ringinv_nil [Inhabited A] (h : Heap A) :
    RingInv h ({} : CircularLinkedList) [] := by
  refine ⟨by simp, rfl, rfl, ?_, ?_⟩
  · intro id hid; simp at hid
  · intro i hi; simp at hi

/-- The accumulator loop of fromPoints: starting from any valid ring it
keeps the invariant, appends the points to the traversal order, grows
the size by the number of points, only allocates fresh ids, and leaves
every heap cell outside the ring and below the fresh mark untouched. -/
theorem fromPoints_loop [Inhabited A] (pts : List (A × A)) :
    ∀ (h : Heap A) (l : CircularLinkedList) (ids : List Nat),
    RingInv h l ids →
    ∃ ids2,
      RingInv (pts.foldl (fun s p =>
          let r := addNode s.1 s.2 p.1 p.2 none
          (r.1, r.2.1)) (h, l)).1
        (pts.foldl (fun s p =>
          let r := addNode s.1 s.2 p.1 p.2 none
          (r.1, r.2.1)) (h, l)).2 ids2 ∧
      toArray (pts.foldl (fun s p =>
          let r := addNode s.1 s.2 p.1 p.2 none
          (r.1, r.2.1)) (h, l)).1
        (pts.foldl (fun s p =>
          let r := addNode s.1 s.2 p.1 p.2 none
          (r.1, r.2.1)) (h, l)).2 = toArray h l ++ pts ∧
      (pts.foldl (fun s p =>
          let r := addNode s.1 s.2 p.1 p.2 none
          (r.1, r.2.1)) (h, l)).2.size = l.size + pts.length ∧
      (∀ id ∈ ids2, id ∈ ids ∨ h.fresh ≤ id) ∧
      (∀ j, j ∉ ids → j < h.fresh → (pts.foldl (fun s p =>
          let r := addNode s.1 s.2 p.1 p.2 none
          (r.1, r.2.1)) (h, l)).1.mem j = h.mem j) ∧
      h.fresh ≤ (pts.foldl (fun s p =>
          let r := addNode s.1 s.2 p.1 p.2 none
          (r.1, r.2.1)) (h, l)).1.fresh := by
  induction pts with
  | nil =>
    intro h l ids hinv
    exact ⟨ids, hinv, by simp, by simp, fun id hid => Or.inl hid,
      fun j _ _ => rfl, le_refl _⟩
  | cons p rest ih =>
    intro h l ids hinv
    rcases eq_or_ne l.size 0 with hsz | hsz
    · -- the accumulator is still empty: first insertion
      have hids0 : ids = [] := by
        have := hinv.size_eq
        rw [hsz] at this
        exact List.length_eq_zero.mp this.symm
      obtain ⟨R1, hnid, hfr1, hmem1, hx1, hy1⟩ := addNode_empty h l hsz p.1 p.2 none
      set h1 := (addNode h l p.1 p.2 none).1 with hh1
      set l1 := (addNode h l p.1 p.2 none).2.1 with hl1
      obtain ⟨ids2, R2, harr, hsz2, hsub, hmem2, hfr2⟩ := ih h1 l1 [h.fresh] R1
      refine ⟨ids2, ?_, ?_, ?_, ?_, ?_, ?_⟩
      · simpa using R2
      · have harr1 : toArray h1 l1 = [p] := by
          rw [toArray_eq R1]
          simp [hx1, hy1]
        have harr0 : toArray h l = [] := by
          simp [toArray, traverseIds, hsz]
        simpa [harr1, harr0] using harr
      · have hsz1 : l1.size = 1 := by
          have := R1.size_eq
          simpa using this
        simp only [List.foldl_cons]
        rw [show (rest.foldl (fun s p =>
            let r := addNode s.1 s.2 p.1 p.2 none
            (r.1, r.2.1)) (h1, l1)).2.size = l1.size + rest.length from hsz2]
        rw [hsz1, hsz]
        simp
        omega
      · intro id hid
        rcases hsub id hid with hc | hc
        · simp at hc
          right; omega
        · right
          rw [hfr1] at hc
          omega
      · intro j hjn hj
        have e1 : (rest.foldl (fun s p =>
            let r := addNode s.1 s.2 p.1 p.2 none
            (r.1, r.2.1)) (h1, l1)).1.mem j = h1.mem j := by
          refine hmem2 j ?_ ?_
          · simp; omega
          · rw [hfr1]; omega
        simp only [List.foldl_cons]
        rw [e1]
        exact hmem1 j (by omega)
      · simp only [List.foldl_cons]
        refine le_trans ?_ hfr2
        rw [hfr1]
        omega
    · -- nonempty accumulator: append at the end
      have hne : ids ≠ [] := by
        intro e
        rw [hinv.size_eq, e] at hsz
        exact hsz rfl
      obtain ⟨R1, hnid, hfr1, hmem1, hpos1, hx1, hy1, hl1e⟩ :=
        addNode_append hinv hne p.1 p.2 none (Or.inl rfl)
      set h1 := (addNode h l p.1 p.2 none).1 with hh1
      set l1 := (addNode h l p.1 p.2 none).2.1 with hl1
      obtain ⟨ids2, R2, harr, hsz2, hsub, hmem2, hfr2⟩ := ih h1 l1 (ids ++ [h.fresh]) R1
      refine ⟨ids2, ?_, ?_, ?_, ?_, ?_, ?_⟩
      · simpa using R2
      · have harr1 : toArray h1 l1 = toArray h l ++ [p] := by
          rw [toArray_eq R1, toArray_eq hinv]
          rw [List.map_append]
          congr 1
          · refine List.map_congr_left ?_
            intro id hid
            have hlt : id < h.fresh := hinv.lt_fresh hid
            have hne2 : id ≠ h.fresh := by omega
            rw [(hpos1 id hne2).1, (hpos1 id hne2).2]
          · simp [hx1, hy1]
        simp only [List.foldl_cons]
        rw [harr, harr1, List.append_assoc]
        rfl
      · have hsz1 : l1.size = l.size + 1 := by
          rw [hl1e]
        simp only [List.foldl_cons]
        rw [show (rest.foldl (fun s p =>
            let r := addNode s.1 s.2 p.1 p.2 none
            (r.1, r.2.1)) (h1, l1)).2.size = l1.size + rest.length from hsz2]
        rw [hsz1]
        simp
        omega
      · intro id hid
        rcases hsub id hid with hc | hc
        · rcases List.mem_append.mp hc with hc2 | hc2
          · exact Or.inl hc2
          · simp at hc2
            right; omega
        · right
          rw [hfr1] at hc
          omega
      · intro j hjn hj
        have e1 : (rest.foldl (fun s p =>
            let r := addNode s.1 s.2 p.1 p.2 none
            (r.1, r.2.1)) (h1, l1)).1.mem j = h1.mem j := by
          refine hmem2 j ?_ ?_
          · simp
            exact ⟨hjn, by omega⟩
          · rw [hfr1]; omega
        simp only [List.foldl_cons]
        rw [e1]
        exact hmem1 j hjn (by omega)
      · simp only [List.foldl_cons]
        refine le_trans ?_ hfr2
        rw [hfr1]
        omega

/-- fromPoints builds a valid ring whose traversal is exactly the given
point list, allocating only fresh heap cells. -/
theorem fromPoints_build [Inhabited A] (h : Heap A) (pts : List (A × A)) :
    ∃ ids2,
      RingInv (fromPoints h pts).1 (fromPoints h pts).2 ids2 ∧
      toArray (fromPoints h pts).1 (fromPoints h pts).2 = pts ∧
      (fromPoints h pts).2.size = pts.length ∧
      (∀ id ∈ ids2, h.fresh ≤ id) ∧
      (∀ j, j < h.fresh → (fromPoints h pts).1.mem j = h.mem j) ∧
      h.fresh ≤ (fromPoints h pts).1.fresh := by
  obtain ⟨ids2, R, harr, hsz, hsub, hmem, hfr⟩ :=
    fromPoints_loop pts h ({} : CircularLinkedList) [] (ringinv_nil h)
  refine ⟨ids2, R, ?_, ?_, ?_, ?_, hfr⟩
  · rw [fromPoints, harr]
    simp [toArray, traverseIds]
  · rw [fromPoints, hsz]
    simp
  · intro id hid
    rcases hsub id hid with hc | hc
    · simp at hc
    · exact hc
  · intro j hj
    exact hmem j (by simp) hj

/-- clone builds a fresh valid ring with the same traversal point
sequence, and leaves the original ring fully intact (invariant and
point sequence) in the resulting heap. -/
theorem cloneList_eq [Inhabited A] {h : Heap A} {l : CircularLinkedList} {ids : List Nat}
    (hinv : RingInv h l ids) :
    ∃ ids2,
    RingInv (cloneList h l).1 (cloneList h l).2 ids2 ∧
    (∀ id ∈ ids2, h.fresh ≤ id) ∧
    h.fresh ≤ (cloneList h l).1.fresh ∧
    toArray (cloneList h l).1 (cloneList h l).2 = toArray h l ∧
    (cloneList h l).2.size = l.size ∧
    RingInv (cloneList h l).1 l ids ∧
    toArray (cloneList h l).1 l = toArray h l ∧
    (∀ id ∈ ids, (cloneList h l).1.mem id = h.mem id) := by
  simp only [cloneList]
  obtain ⟨ids2, R, harr, hsz, hsub, hmem, hfr⟩ := fromPoints_build h (toArray h l)
  have hmemids : ∀ id ∈ ids, (fromPoints h (toArray h l)).1.mem id = h.mem id := by
    intro id hid
    exact hmem id (hinv.lt_fresh hid)
  have R0 : RingInv (fromPoints h (toArray h l)).1 l ids := ringinv_of_agree hinv hmemids hfr
  refine ⟨ids2, R, hsub, hfr, harr, ?_, R0, ?_, hmemids⟩
  · rw [hsz, toArray_eq hinv, List.length_map, hinv.size_eq]
  · obtain ⟨H, hH⟩ : ∃ H, (fromPoints h (toArray h l)).1 = H := ⟨_, rfl⟩
    rw [hH] at R0 hmemids
    rw [hH, toArray_eq R0, toArray_eq hinv]
    refine List.map_congr_left ?_
    intro id hid
    simp only [Heap.get, hmemids id hid]

/-- distance of GeometryUtils.ts: Euclidean distance between two
points. -/
noncomputable def distance (p1 p2 : ℝ × ℝ) : ℝ :=
  Real.sqrt ((p1.1 - p2.1) * (p1.1 - p2.1) + (p1.2 - p2.2) * (p1.2 - p2.2))

/-- calculatePerimeter of GeometryUtils.ts: 0 for fewer than two
vertices, else the sum over the traversal of the distance from each
node to the node its next pointer references. -/
noncomputable def calculatePerimeter (h : Heap ℝ) (l : CircularLinkedList) : ℝ :=
  if l.size < 2 then 0
  else ((traverseIds h l).map fun i =>
    distance ((h.get i).x, (h.get i).y)
      ((h.get (nextOf h i)).x, (h.get (nextOf h i)).y)).sum

/-- calculateArea of GeometryUtils.ts: 0 for fewer than three vertices,
else half the absolute value of the shoelace sum accumulated over the
traversal. -/
noncomputable def calculateArea (h : Heap ℝ) (l : CircularLinkedList) : ℝ :=
  if l.size < 3 then 0
  else |((traverseIds h l).map fun i =>
    (h.get i).x * (h.get (nextOf h i)).y
      - (h.get (nextOf h i)).x * (h.get i).y).sum| / 2

/-- isPointInPolygon of GeometryUtils.ts: false for fewer than three
vertices, else the ray casting parity accumulated over the traversal in
order, toggling at each crossing edge. -/
noncomputable def isPointInPolygon (h : Heap ℝ) (px py : ℝ) (l : CircularLinkedList) : Bool :=
  if l.size < 3 then false
  else (traverseIds h l).foldl (fun inside i =>
    let node := h.get i
    let nx := h.get (nextOf h i)
    if (¬((node.y > py) ↔ (nx.y > py))) ∧
        px < (nx.x - node.x) * (py - node.y) / (nx.y - node.y) + node.x
    then !inside else inside) false

/-- normalize of GeometryUtils.ts: scale a vector to unit length, with
a guard returning the zero vector when the length is zero. -/
noncomputable def GeometryUtils.normalize (v : ℝ × ℝ) : ℝ × ℝ :=
  let length := Real.sqrt (v.1 * v.1 + v.2 * v.2)
  if length = 0 then (0, 0) else (v.1 / length, v.2 / length)

/-- The per-vertex body of the traverse callback of offset of
GeometryUtils.ts: the vertex displaced along the normalized average of
the two adjacent edge normals. -/
noncomputable def offsetPoint (h : Heap ℝ) (d : ℝ) (i : Nat) : ℝ × ℝ :=
  let node := h.get i
  let pm := h.get (prevOf h i)
  let nx := h.get (nextOf h i)
  let v1 := GeometryUtils.normalize (node.x - pm.x, node.y - pm.y)
  let v2 := GeometryUtils.normalize (nx.x - node.x, nx.y - node.y)
  let n1 := (-v1.2, v1.1)
  let n2 := (-v2.2, v2.1)
  let avgNormal := GeometryUtils.normalize ((n1.1 + n2.1) / 2, (n1.2 + n2.2) / 2)
  (node.x + avgNormal.1 * d, node.y + avgNormal.2 * d)

/-- offset of GeometryUtils.ts: a fresh empty list for fewer than three
vertices, else a new list built from one displaced point per vertex in
traversal order. -/
noncomputable def offset (h : Heap ℝ) (l : CircularLinkedList) (d : ℝ) :
    Heap ℝ × CircularLinkedList :=
  if l.size < 3 then (h, {})
  else fromPoints h ((traverseIds h l).map (offsetPoint h d))

/-- The position-applying traversal of smooth: write each queued
position into the current node and advance through the (unchanged) next
pointer, as the second traverse of the source does. -/
def applyPosLoop [Inhabited A] (h : Heap A) (cur : Nat) : List (A × A) → Heap A
  | [] => h
  | p :: rest =>
    applyPosLoop (setPos h cur p.1 p.2) (nextOf (setPos h cur p.1 p.2) cur) rest

/-- One iteration of smooth of GeometryUtils.ts: first compute all new
positions from the current heap, then walk the ring again writing
them. -/
noncomputable def smoothIter (h : Heap ℝ) (l : CircularLinkedList) (factor : ℝ) : Heap ℝ :=
  let newPositions := (traverseIds h l).map fun i =>
    let node := h.get i
    let pm := h.get (prevOf h i)
    let nx := h.get (nextOf h i)
    let smoothedX := pm.x + node.x + nx.x
    let smoothedY := pm.y + node.y + nx.y
    (node.x + (smoothedX / 3 - node.x) * factor,
      node.y + (smoothedY / 3 - node.y) * factor)
  applyPosLoop h (l.head.getD 0) newPositions

/-- The iteration loop of smooth. -/
noncomputable def smoothLoop (l : CircularLinkedList) (factor : ℝ) : Heap ℝ → Nat → Heap ℝ
  | h, 0 => h
  | h, k + 1 => smoothLoop l factor (smoothIter h l factor) k

/-- smooth of GeometryUtils.ts: no-op for fewer than three vertices,
else the given number of smoothing iterations (a non-positive count
runs the loop zero times). -/
noncomputable def smooth (h : Heap ℝ) (l : CircularLinkedList) (iterations : Int)
    (factor : ℝ) : Heap ℝ :=
  if l.size < 3 then h else smoothLoop l factor h iterations.toNat

/-- Math.atan2 of the source, modelled by the complex argument of
x + y i. -/
noncomputable def jsAtan2 (y x : ℝ) : ℝ := Complex.arg ⟨x, y⟩

/-- generateArcPoints of GeometryUtils.ts: segments + 1 points on the
circle around center, sweeping from the start angle by the angle
difference (wrapped into the non-negative range by adding 2 pi when
negative). -/
noncomputable def generateArcPoints (s e c : ℝ × ℝ) (radius : ℝ) (segments : ℕ) :
    List (ℝ × ℝ) :=
  let startAngle := jsAtan2 (s.2 - c.2) (s.1 - c.1)
  let endAngle := jsAtan2 (e.2 - c.2) (e.1 - c.1)
  let d0 := endAngle - startAngle
  let angleDiff := if d0 < 0 then d0 + 2 * Real.pi else d0
  (List.range (segments + 1)).map fun i =>
    let angle := startAngle + (angleDiff * i) / segments
    (c.1 + Real.cos angle * radius, c.2 + Real.sin angle * radius)

/-- The arcPoints.forEach loop of fillet: insert the points one by one
with addNode at index base + i, i counting from 0. -/
def insertArc [Inhabited A] (h : Heap A) (l : CircularLinkedList) (base : Int) :
    List (A × A) → Nat → Heap A × CircularLinkedList
  | [], _ => (h, l)
  | p :: rest, i =>
    let r := addNode h l p.1 p.2 (some (base + (i : Int)))
    insertArc r.1 r.2.1 base rest (i + 1)

/-- fillet of GeometryUtils.ts: no-op for fewer than three vertices or
a non-positive radius or an out-of-range index; otherwise remove the
node getNodeAt returns and insert the nine arc sample points at indices
nodeIndex + i. -/
noncomputable def fillet (h : Heap ℝ) (l : CircularLinkedList) (nodeIndex : Int)
    (radius : ℝ) : Heap ℝ × CircularLinkedList :=
  if l.size < 3 ∨ radius ≤ 0 then (h, l)
  else
    match getNodeAt h l nodeIndex with
    | none => (h, l)
    | some nid =>
      let node := h.get nid
      let pm := h.get (prevOf h nid)
      let nx := h.get (nextOf h nid)
      let v1 := GeometryUtils.normalize (pm.x - node.x, pm.y - node.y)
      let v2 := GeometryUtils.normalize (nx.x - node.x, nx.y - node.y)
      let angle := Real.arccos (max (-1) (min 1 (v1.1 * v2.1 + v1.2 * v2.2)))
      let arcDistance := radius / Real.tan (angle / 2)
      let startPoint := (node.x + v1.1 * arcDistance, node.y + v1.2 * arcDistance)
      let endPoint := (node.x + v2.1 * arcDistance, node.y + v2.2 * arcDistance)
      let arcPoints := generateArcPoints startPoint endPoint (node.x, node.y) radius 8
      let r := removeNodeByRef h l nid
      insertArc r.1 r.2.1 nodeIndex arcPoints 0

/-- The LODConfig interface of LevelOfDetail.ts. -/
structure LODConfig where
  minZoom : ℝ
  maxZoom : ℝ
  minSegments : ℝ
  maxSegments : ℝ
  smoothingFactor : ℝ

/-- defaultConfig of LevelOfDetail.ts. -/
noncomputable def defaultConfig : LODConfig := ⟨0.2, 5, 4, 64, 0.7⟩

/-- Math.round of the source for the values the LOD system rounds:
floor of x + 1/2. -/
noncomputable def jsRound (x : ℝ) : ℤ := ⌊x + 1 / 2⌋

/-- The record calculateLOD returns. -/
structure LODResult where
  segments : ℤ
  smoothingIterations : ℤ
  smoothingFactor : ℝ
  showNodes : Bool
  nodeSize : ℝ

/-- calculateLOD of LevelOfDetail.ts: clamp the zoom into the
configured range, interpolate the segment count linearly and round it,
derive the smoothing iteration count and factor from the inverted
ratio, and fill in the node display hints. -/
noncomputable def calculateLOD (zoomLevel : ℝ) (cfg : LODConfig) : LODResult :=
  let clampedZoom := max cfg.minZoom (min cfg.maxZoom zoomLevel)
  let zr := (clampedZoom - cfg.minZoom) / (cfg.maxZoom - cfg.minZoom)
  { segments := jsRound (cfg.minSegments + (cfg.maxSegments - cfg.minSegments) * zr)
    smoothingIterations := jsRound ((1 - zr) * 3)
    smoothingFactor := cfg.smoothingFactor * (1 - zr)
    showNodes := decide (zoomLevel > 3 / 2)
    nodeSize := max 2 (min 8 (zoomLevel * 2)) }

/-- applyAdaptiveSmoothing of LevelOfDetail.ts: clone the input ring,
then smooth the clone exactly when both the computed iteration count
and the computed factor are positive. -/
noncomputable def applyAdaptiveSmoothing (h : Heap ℝ) (l : CircularLinkedList)
    (zoomLevel : ℝ) (cfg : LODConfig) : Heap ℝ × CircularLinkedList :=
  let lod := calculateLOD zoomLevel cfg
  let c := cloneList h l
  if 0 < lod.smoothingIterations ∧ 0 < lod.smoothingFactor then
    (smooth c.1 c.2 lod.smoothingIterations lod.smoothingFactor, c.2)
  else c

/-- simplifyShape of LevelOfDetail.ts: return the original ring when
zoomed in past 2 or already at most the target segment count; otherwise
sample every step-th node of the traversal, fall back to three evenly
spaced getNodeAt lookups when fewer than three samples survive, and
build a new list from the sampled points. -/
noncomputable def simplifyShape (h : Heap ℝ) (l : CircularLinkedList) (zoomLevel : ℝ)
    (cfg : LODConfig) : Heap ℝ × CircularLinkedList :=
  let lod := calculateLOD zoomLevel cfg
  if zoomLevel > 2 ∨ (l.size : ℤ) ≤ lod.segments then (h, l)
  else
    let targetPoints : ℤ := max 3 (min (l.size : ℤ) lod.segments)
    let step : ℤ := max 1 ⌊(l.size : ℝ) / (targetPoints : ℝ)⌋
    let pts := ((traverseIds h l).enum.filter fun p => (p.1 : ℤ) % step = 0).map
      fun p => ((h.get p.2).x, (h.get p.2).y)
    let simplifiedPoints :=
      if pts.length < 3 ∧ 3 ≤ l.size then
        (List.range 3).filterMap fun i =>
          (getNodeAt h l ⌊(i : ℝ) * ((l.size : ℝ) / 3)⌋).map fun id =>
            ((h.get id).x, (h.get id).y)
      else pts
    fromPoints h simplifiedPoints

/-- The invariant is checkable: every component is a bounded or
list-bounded quantification over decidable comparisons of ids and
pointers. -/
instance [Inhabited A] (h : Heap A) (l : CircularLinkedList) (ids : List Nat) :
    Decidable (RingInv h l ids) := by
  unfold RingInv
  infer_instance

/-- A fixed rational test triangle built through the constructor. -/
def triQ : Heap ℚ × CircularLinkedList :=
  fromPoints (Heap.empty ℚ) [(0, 0), (10, 0), (0, 10)]

/-- The same test triangle with real coordinates. -/
def triR : Heap ℝ × CircularLinkedList :=
  fromPoints (Heap.empty ℝ) [(0, 0), (10, 0), (0, 10)]

/-- A two-vertex real test ring. -/
def pairR : Heap ℝ × CircularLinkedList :=
  fromPoints (Heap.empty ℝ) [(0, 0), (10, 0)]

/-- Heaps that agree on the ring ids produce the same traversal point
sequence. -/
theorem toArray_of_agree [Inhabited A] {h h2 : Heap A} {l : CircularLinkedList}
    {ids : List Nat} (hinv : RingInv h l ids)
    (hagree : ∀ id ∈ ids, h2.mem id = h.mem id) (hfr : h.fresh ≤ h2.fresh) :
    toArray h2 l = toArray h l := by
  rw [toArray_eq (ringinv_of_agree hinv hagree hfr), toArray_eq hinv]
  refine List.map_congr_left ?_
  intro id hid
  simp only [Heap.get, hagree id hid]

/-- setPosition keeps the pointer structure, so it preserves the
invariant of any ring, whichever node it writes. -/
theorem ringinv_setPos [Inhabited A] {h : Heap A} {l : CircularLinkedList} {ids : List Nat}
    (hinv : RingInv h l ids) (i : Nat) (x y : A) :
    RingInv (setPos h i x y) l ids := by
  refine ⟨hinv.nodup, hinv.head_eq, hinv.size_eq, ?_, ?_⟩
  · intro id hid
    rw [mem_setPos, fresh_setPos]
    by_cases hj : id = i
    · rw [if_pos hj]
      exact ⟨rfl, hinv.lt_fresh hid⟩
    · rw [if_neg hj]
      exact ⟨hinv.isSome hid, hinv.lt_fresh hid⟩
  · intro k hk
    have hne : ids ≠ [] := by
      intro e; rw [e] at hk; simp at hk
    constructor
    · rw [get_setPos]
      by_cases hj : cyc ids k = i
      · rw [if_pos hj, ← hj]
        exact hinv.next_cyc hne k
      · rw [if_neg hj]
        exact hinv.next_cyc hne k
    · rw [get_setPos]
      by_cases hj : cyc ids k = i
      · rw [if_pos hj, ← hj]
        exact hinv.prev_cyc hne k
      · rw [if_neg hj]
        exact hinv.prev_cyc hne k

/-- The position-applying walk of smooth preserves the invariant,
touches only ring nodes, and keeps the allocation mark. -/
theorem applyPosLoop_facts [Inhabited A] :
    ∀ (pts : List (A × A)) (h : Heap A) (l : CircularLinkedList) (ids : List Nat)
    (cur : Nat), RingInv h l ids → cur ∈ ids →
    RingInv (applyPosLoop h cur pts) l ids ∧
    (∀ j, j ∉ ids → (applyPosLoop h cur pts).mem j = h.mem j) ∧
    (applyPosLoop h cur pts).fresh = h.fresh := by
  intro pts
  induction pts with
  | nil =>
    intro h l ids cur hinv _
    exact ⟨hinv, fun j _ => rfl, rfl⟩
  | cons p rest ih =>
    intro h l ids cur hinv hcur
    have hinv2 : RingInv (setPos h cur p.1 p.2) l ids := ringinv_setPos hinv cur p.1 p.2
    have hnx : nextOf (setPos h cur p.1 p.2) cur ∈ ids := nextOf_mem hinv2 hcur
    obtain ⟨R, hmem, hfr⟩ := ih (setPos h cur p.1 p.2) l ids _ hinv2 hnx
    refine ⟨R, ?_, ?_⟩
    · intro j hj
      rw [applyPosLoop, hmem j hj, mem_setPos,
        if_neg (fun e => hj (by rw [e]; exact hcur))]
    · rw [applyPosLoop, hfr, fresh_setPos]

/-- One smoothing iteration preserves the invariant, touches only ring
nodes, and keeps the allocation mark. -/
theorem smoothIter_facts {h : Heap ℝ} {l : CircularLinkedList} {ids : List Nat}
    (hinv : RingInv h l ids) (hne : ids ≠ []) (factor : ℝ) :
    RingInv (smoothIter h l factor) l ids ∧
    (∀ j, j ∉ ids → (smoothIter h l factor).mem j = h.mem j) ∧
    (smoothIter h l factor).fresh = h.fresh := by
  have hhd : l.head.getD 0 ∈ ids := by
    rw [head_getD_eq hinv hne]
    exact cyc_mem ids hne 0
  exact applyPosLoop_facts _ h l ids _ hinv hhd

/-- smooth preserves the invariant, touches only ring nodes, and keeps
the allocation mark. -/
theorem smooth_facts {h : Heap ℝ} {l : CircularLinkedList} {ids : List Nat}
    (hinv : RingInv h l ids) (iterations : Int) (factor : ℝ) :
    RingInv (smooth h l iterations factor) l ids ∧
    (∀ j, j ∉ ids → (smooth h l iterations factor).mem j = h.mem j) ∧
    (smooth h l iterations factor).fresh = h.fresh := by
  rw [smooth]
  by_cases hsz : l.size < 3
  · rw [if_pos hsz]
    exact ⟨hinv, fun j _ => rfl, rfl⟩
  · rw [if_neg hsz]
    have hne : ids ≠ [] := by
      intro e
      rw [hinv.size_eq, e] at hsz
      simp at hsz
    obtain ⟨n, hn⟩ : ∃ n : Nat, iterations.toNat = n := ⟨_, rfl⟩
    rw [hn]
    clear hn
    induction n generalizing h with
    | zero => exact ⟨hinv, fun j _ => rfl, rfl⟩
    | succ k ih =>
      obtain ⟨R1, hm1, hf1⟩ := smoothIter_facts hinv hne factor
      obtain ⟨R2, hm2, hf2⟩ := ih R1
      rw [smoothLoop]
      refine ⟨R2, ?_, ?_⟩
      · intro j hj
        rw [hm2 j hj, hm1 j hj]
      · rw [hf2, hf1]

/-- getNodeAt answers for every in-range index. -/
theorem getNodeAt_isSome [Inhabited A] (h : Heap A) (l : CircularLinkedList) (idx : Int)
    (hc : ¬(l.size = 0 ∨ idx < 0 ∨ (l.size : Int) ≤ idx)) :
    (getNodeAt h l idx).isSome := by
  rw [getNodeAt, if_neg hc]
  by_cases hdir : 2 * idx.toNat ≤ l.size
  · rw [if_pos hdir]
    rfl
  · rw [if_neg hdir]
    rfl

/-- Every generated arc point lies on the circle of the given radius
around the center. -/
theorem generateArcPoints_mem (s e c : ℝ × ℝ) (r : ℝ) (n : ℕ) {p : ℝ × ℝ}
    (hp : p ∈ generateArcPoints s e c r n) :
    ∃ a : ℝ, p = (c.1 + Real.cos a * r, c.2 + Real.sin a * r) := by
  simp only [generateArcPoints, List.mem_map] at hp
  obtain ⟨i, _, hi⟩ := hp
  exact ⟨_, hi.symm⟩

/-- No generated arc point coincides with the arc center when the
radius is nonzero: every sample sits at distance radius from it. -/
theorem generateArcPoints_center_not_mem (s e c : ℝ × ℝ) {r : ℝ} (hr : r ≠ 0)
    (n : ℕ) : c ∉ generateArcPoints s e c r n := by
  intro hmem
  obtain ⟨a, ha⟩ := generateArcPoints_mem s e c r n hmem
  have h1 : Real.cos a = 0 ∨ r = 0 := by
    have := congrArg Prod.fst ha
    simp at this
    exact this
  have h2 : Real.sin a = 0 ∨ r = 0 := by
    have := congrArg Prod.snd ha
    simp at this
    exact this
  rcases h1 with hc0 | hr0
  · rcases h2 with hs0 | hr0
    · have hpy := Real.sin_sq_add_cos_sq a
      rw [hs0, hc0] at hpy
      norm_num at hpy
    · exact hr hr0
  · exact hr hr0

/-- The list a ring built with fromPoints holds has exactly one node
per input point. -/
theorem fromPoints_size [Inhabited A] (h : Heap A) (pts : List (A × A)) :
    (fromPoints h pts).2.size = pts.length := by
  obtain ⟨_, _, _, hsz, _⟩ := fromPoints_build h pts
  exact hsz

/-- C2 (amended): for rings below three vertices area is 0 and
point-in-polygon is false, but the perimeter guard only covers rings
below two vertices; a two-vertex ring falls through to the edge
distance sum. -/
theorem spec_C2 {h : Heap ℝ} {l : CircularLinkedList} (px py : ℝ) (hsz : l.size < 3) :
    calculateArea h l = 0 ∧
    isPointInPolygon h px py l = false ∧
    (l.size < 2 → calculatePerimeter h l = 0) := by
  refine ⟨?_, ?_, ?_⟩
  · rw [calculateArea, if_pos hsz]
  · rw [isPointInPolygon, if_pos hsz]
  · intro h2
    rw [calculatePerimeter, if_pos h2]

/-- C2 witness: the empty ring. -/
theorem spec_C2_witness :
    ({} : CircularLinkedList).size < 3 ∧
    (calculateArea (Heap.empty ℝ) {} = 0 ∧
      isPointInPolygon (Heap.empty ℝ) 1 1 {} = false ∧
      (({} : CircularLinkedList).size < 2 → calculatePerimeter (Heap.empty ℝ) {} = 0)) :=
  ⟨by decide, spec_C2 1 1 (by decide)⟩

/-- C2 counterexample: a two-vertex ring (size 2 < 3) whose perimeter
is 20, not 0: the spec's size < 3 guard does not match the code's
size < 2 guard for calculatePerimeter. -/
theorem spec_C2_counterexample :
    pairR.2.size = 2 ∧ toArray pairR.1 pairR.2 = [(0, 0), (10, 0)] ∧
    calculatePerimeter pairR.1 pairR.2 = 20 := by
  have hsz : pairR.2.size = 2 := rfl
  have ht : traverseIds pairR.1 pairR.2 = [0, 1] := rfl
  have hs100 : Real.sqrt 100 = 10 := by
    rw [show (100 : ℝ) = 10 ^ 2 by norm_num]
    exact Real.sqrt_sq (by norm_num)
  refine ⟨rfl, rfl, ?_⟩
  rw [calculatePerimeter, if_neg (by rw [hsz]; norm_num), ht]
  simp only [List.map_cons, List.map_nil, List.sum_cons, List.sum_nil]
  rw [show nextOf pairR.1 0 = 1 from rfl, show nextOf pairR.1 1 = 0 from rfl,
    show (pairR.1.get 0).x = 0 from rfl, show (pairR.1.get 0).y = 0 from rfl,
    show (pairR.1.get 1).x = 10 from rfl, show (pairR.1.get 1).y = 0 from rfl]
  simp only [distance]
  rw [show ((0 : ℝ) - 10) * ((0 : ℝ) - 10) + ((0 : ℝ) - 0) * ((0 : ℝ) - 0) = 100 by norm_num,
    show ((10 : ℝ) - 0) * ((10 : ℝ) - 0) + ((0 : ℝ) - 0) * ((0 : ℝ) - 0) = 100 by norm_num,
    hs100]
  norm_num

/-- Rounding an integer real returns that integer. -/
theorem jsRound_intCast (k : ℤ) : jsRound ((k : ℝ)) = k := by
  rw [jsRound, Int.floor_int_add]
  norm_num

/-- C8 (amended): calculateLOD computes its segment count as the
rounded linear interpolation of the clamped zoom, and when the
configured segment bounds are integers the boundary zoom levels map
exactly to them. -/
theorem spec_C8 (cfg : LODConfig) (m M : ℤ) (hlt : cfg.minZoom < cfg.maxZoom)
    (hm : cfg.minSegments = (m : ℝ)) (hM : cfg.maxSegments = (M : ℝ)) :
    (∀ z : ℝ, (calculateLOD z cfg).segments
      = jsRound (cfg.minSegments + (cfg.maxSegments - cfg.minSegments)
        * ((max cfg.minZoom (min cfg.maxZoom z) - cfg.minZoom)
          / (cfg.maxZoom - cfg.minZoom)))) ∧
    (calculateLOD cfg.minZoom cfg).segments = m ∧
    (calculateLOD cfg.maxZoom cfg).segments = M := by
  have hne : cfg.maxZoom - cfg.minZoom ≠ 0 := sub_ne_zero.mpr (ne_of_gt hlt)
  refine ⟨fun z => rfl, ?_, ?_⟩
  · have e0 : (calculateLOD cfg.minZoom cfg).segments
        = jsRound (cfg.minSegments + (cfg.maxSegments - cfg.minSegments)
          * ((max cfg.minZoom (min cfg.maxZoom cfg.minZoom) - cfg.minZoom)
            / (cfg.maxZoom - cfg.minZoom))) := rfl
    have e1 : max cfg.minZoom (min cfg.maxZoom cfg.minZoom) = cfg.minZoom := by
      rw [min_eq_right (le_of_lt hlt), max_self]
    rw [e0, e1, sub_self, zero_div, mul_zero, add_zero, hm, jsRound_intCast]
  · have e0 : (calculateLOD cfg.maxZoom cfg).segments
        = jsRound (cfg.minSegments + (cfg.maxSegments - cfg.minSegments)
          * ((max cfg.minZoom (min cfg.maxZoom cfg.maxZoom) - cfg.minZoom)
            / (cfg.maxZoom - cfg.minZoom))) := rfl
    have e1 : max cfg.minZoom (min cfg.maxZoom cfg.maxZoom) = cfg.maxZoom := by
      rw [min_self, max_eq_right (le_of_lt hlt)]
    rw [e0, e1, div_self hne, mul_one, hm, hM,
      show ((m : ℝ) + ((M : ℝ) - (m : ℝ))) = ((M : ℤ) : ℝ) by push_cast; ring,
      jsRound_intCast]

/-- C8 witness: the integer-bound config (0, 1, 4, 64). -/
theorem spec_C8_witness :
    (⟨0, 1, 4, 64, 1⟩ : LODConfig).minZoom < (⟨0, 1, 4, 64, 1⟩ : LODConfig).maxZoom ∧
    ((calculateLOD (⟨0, 1, 4, 64, 1⟩ : LODConfig).minZoom ⟨0, 1, 4, 64, 1⟩).segments = 4 ∧
      (calculateLOD (⟨0, 1, 4, 64, 1⟩ : LODConfig).maxZoom ⟨0, 1, 4, 64, 1⟩).segments = 64) :=
  ⟨by norm_num,
    (spec_C8 ⟨0, 1, 4, 64, 1⟩ 4 64 (by norm_num) (by norm_num) (by norm_num)).2⟩

/-- C8 counterexample: a fractional minSegments of 1/2 makes the
boundary identity fail: at the minimum zoom the returned segment count
is the rounded value 1, which differs from minSegments. -/
theorem spec_C8_counterexample :
    (⟨0, 1, 1/2, 64, 1⟩ : LODConfig).minZoom < (⟨0, 1, 1/2, 64, 1⟩ : LODConfig).maxZoom ∧
    (calculateLOD 0 (⟨0, 1, 1/2, 64, 1⟩ : LODConfig)).segments = 1 ∧
    ((1 : ℝ) ≠ (⟨0, 1, 1/2, 64, 1⟩ : LODConfig).minSegments) := by
  refine ⟨by norm_num, ?_, by norm_num⟩
  have e0 : (calculateLOD 0 (⟨0, 1, 1/2, 64, 1⟩ : LODConfig)).segments
      = jsRound (1/2 + (64 - 1/2) * ((max 0 (min 1 0) - 0) / (1 - 0))) := rfl
  have e1 : max (0 : ℝ) (min 1 0) = 0 := by
    rw [min_eq_right (by norm_num : (0:ℝ) ≤ 1), max_self]
  rw [e0, e1, jsRound]
  norm_num

/-- C5: when the source ring has at least three points, simplifyShape
returns a ring with at least three points, whether it keeps the
original, the step-sampled points, or the three-lookup fallback. -/
theorem spec_C5 (h : Heap ℝ) (l : CircularLinkedList) (zoomLevel : ℝ) (cfg : LODConfig)
    (hsz : 3 ≤ l.size) : 3 ≤ (simplifyShape h l zoomLevel cfg).2.size := by
  rw [simplifyShape]
  by_cases hb : zoomLevel > 2 ∨ (l.size : ℤ) ≤ (calculateLOD zoomLevel cfg).segments
  · rw [if_pos hb]
    exact hsz
  · rw [if_neg hb]
    refine le_trans ?_ (le_of_eq (fromPoints_size h _).symm)
    by_cases hfb : (((traverseIds h l).enum.filter fun p =>
        (p.1 : ℤ) % max 1 ⌊(l.size : ℝ) / ((max 3 (min (l.size : ℤ)
          (calculateLOD zoomLevel cfg).segments) : ℤ) : ℝ)⌋ = 0).map
        fun p => ((h.get p.2).x, (h.get p.2).y)).length < 3 ∧ 3 ≤ l.size
    · rw [if_pos hfb]
      have hsome : ∀ i : ℕ, i < 3 →
          (getNodeAt h l ⌊(i : ℝ) * ((l.size : ℝ) / 3)⌋).isSome := by
        intro i hi
        apply getNodeAt_isSome
        push_neg
        have hs3 : (3 : ℝ) ≤ (l.size : ℝ) := by exact_mod_cast hsz
        have hi2 : (i : ℝ) ≤ 2 := by exact_mod_cast Nat.lt_succ_iff.mp hi
        refine ⟨by omega, ?_, ?_⟩
        · apply Int.floor_nonneg.mpr
          positivity
        · rw [Int.floor_lt]
          push_cast
          nlinarith
      obtain ⟨a0, h0⟩ := Option.isSome_iff_exists.mp (hsome 0 (by norm_num))
      obtain ⟨a1, h1⟩ := Option.isSome_iff_exists.mp (hsome 1 (by norm_num))
      obtain ⟨a2, h2⟩ := Option.isSome_iff_exists.mp (hsome 2 (by norm_num))
      rw [show List.range 3 = [0, 1, 2] from rfl]
      norm_num at h0 h1 h2
      simp [List.filterMap_cons, h0, h1, h2]
    · rw [if_neg hfb]
      omega

/-- C5 witness: the real test triangle at zoom 0 with the default
config. -/
theorem spec_C5_witness :
    3 ≤ triR.2.size ∧ 3 ≤ (simplifyShape triR.1 triR.2 0 defaultConfig).2.size :=
  ⟨by decide, spec_C5 triR.1 triR.2 0 defaultConfig (by decide)⟩

/-- C1: every documented ring operation (addNode at any index or
appended, removeNode and removeNodeByRef, reverse, clone) carried out
on a valid ring, including the empty one, leaves validate true, on
both the produced ring and, for clone, the original. -/
theorem spec_C1 [Inhabited A] {h : Heap A} {l : CircularLinkedList} {ids : List Nat}
    (hinv : RingInv h l ids) :
    validate h l = true ∧
    (∀ (x y : A) (idx : Option Int),
      validate (addNode h l x y idx).1 (addNode h l x y idx).2.1 = true) ∧
    (∀ idx : Int,
      validate (removeNode h l idx).1 (removeNode h l idx).2.1 = true) ∧
    (∀ nid ∈ ids,
      validate (removeNodeByRef h l nid).1 (removeNodeByRef h l nid).2.1 = true) ∧
    validate (reverse h l).1 (reverse h l).2 = true ∧
    validate (cloneList h l).1 (cloneList h l).2 = true ∧
    validate (cloneList h l).1 l = true := by
  obtain ⟨ids2, Rc, _, _, _, _, Rl, _, _⟩ := cloneList_eq hinv
  refine ⟨validate_of_inv hinv, ?_, ?_, ?_, ?_,
    validate_of_inv Rc, validate_of_inv Rl⟩
  · intro x y idx
    obtain ⟨ids3, R3⟩ := addNode_wf hinv x y idx
    exact validate_of_inv R3
  · intro idx
    by_cases hg : l.size = 0 ∨ idx < 0 ∨ (l.size : Int) ≤ idx
    · rw [removeNode, if_pos hg]
      exact validate_of_inv hinv
    · rw [removeNode, if_neg hg]
      push_neg at hg
      obtain ⟨m, hm, he⟩ := getNodeAt_valid hinv idx hg.2.1 hg.2.2
      rw [he]
      obtain ⟨ids3, _, R3⟩ := remove_invariant hinv hm
      exact validate_of_inv R3
  · intro nid hm
    obtain ⟨ids3, _, R3⟩ := remove_invariant hinv hm
    exact validate_of_inv R3
  · by_cases hsz : l.size ≤ 1
    · rw [reverse, if_pos hsz]
      exact validate_of_inv hinv
    · obtain ⟨R3, _⟩ := reverse_swap hinv (by omega)
      exact validate_of_inv R3

/-- C1 witness: the rational test triangle. -/
theorem spec_C1_witness :
    RingInv triQ.1 triQ.2 [0, 1, 2] ∧
    (validate triQ.1 triQ.2 = true ∧
     (∀ (x y : ℚ) (idx : Option Int),
       validate (addNode triQ.1 triQ.2 x y idx).1
         (addNode triQ.1 triQ.2 x y idx).2.1 = true) ∧
     (∀ idx : Int,
       validate (removeNode triQ.1 triQ.2 idx).1
         (removeNode triQ.1 triQ.2 idx).2.1 = true) ∧
     (∀ nid ∈ [0, 1, 2],
       validate (removeNodeByRef triQ.1 triQ.2 nid).1
         (removeNodeByRef triQ.1 triQ.2 nid).2.1 = true) ∧
     validate (reverse triQ.1 triQ.2).1 (reverse triQ.1 triQ.2).2 = true ∧
     validate (cloneList triQ.1 triQ.2).1 (cloneList triQ.1 triQ.2).2 = true ∧
     validate (cloneList triQ.1 triQ.2).1 triQ.2 = true) :=
  ⟨by decide, spec_C1 (by decide)⟩

/-- C9: addNode with a negative index on a nonempty ring inserts at
position 0: the new vertex becomes the head, the traversal visits it
first followed by the previous sequence unchanged, and the size
increments. -/
theorem spec_C9 [Inhabited A] {h : Heap A} {l : CircularLinkedList} {ids : List Nat}
    (hinv : RingInv h l ids) (hne : ids ≠ []) (x y : A) (i : Int) (hi : i < 0) :
    (addNode h l x y (some i)).2.1.head = some (addNode h l x y (some i)).2.2 ∧
    toArray (addNode h l x y (some i)).1 (addNode h l x y (some i)).2.1
      = (x, y) :: toArray h l ∧
    (addNode h l x y (some i)).2.1.size = l.size + 1 := by
  obtain ⟨R, hnid, hl2, hfr, hmem, hpos, hx, hy⟩ :=
    addNode_prepend hinv hne x y i (by omega)
  refine ⟨?_, ?_, ?_⟩
  · rw [hl2, hnid]
  · rw [toArray_eq R, toArray_eq hinv]
    simp only [List.map_cons]
    rw [hx, hy]
    congr 1
    refine List.map_congr_left ?_
    intro id hid
    have hne2 : id ≠ h.fresh := by
      have := hinv.lt_fresh hid
      omega
    rw [(hpos id hne2).1, (hpos id hne2).2]
  · rw [hl2]

/-- C9 witness: prepending with index -1 to the rational test
triangle. -/
theorem spec_C9_witness :
    (RingInv triQ.1 triQ.2 [0, 1, 2] ∧ ([0, 1, 2] : List Nat) ≠ [] ∧ (-1 : Int) < 0) ∧
    ((addNode triQ.1 triQ.2 5 6 (some (-1))).2.1.head
        = some (addNode triQ.1 triQ.2 5 6 (some (-1))).2.2 ∧
      toArray (addNode triQ.1 triQ.2 5 6 (some (-1))).1
        (addNode triQ.1 triQ.2 5 6 (some (-1))).2.1
        = (5, 6) :: toArray triQ.1 triQ.2 ∧
      (addNode triQ.1 triQ.2 5 6 (some (-1))).2.1.size = triQ.2.size + 1) :=
  ⟨⟨by decide, by decide, by decide⟩,
    @spec_C9 ℚ _ triQ.1 triQ.2 [0, 1, 2] (by decide) (by decide) 5 6 (-1) (by decide)⟩

/-- C3 (amended): for size at least 2, reverse swaps next and prev at
every vertex and the traversal afterwards is exactly the reverse of the
original sequence with no vertex added, removed or moved; but the head
is reassigned to the old head's former prev, not its former next,
because the head is re-read after the pointers were already swapped. -/
theorem spec_C3 [Inhabited A] {h : Heap A} {l : CircularLinkedList} {ids : List Nat}
    (hinv : RingInv h l ids) (hsz : 2 ≤ l.size) :
    (∀ id ∈ ids, (reverse h l).1.mem id = (h.mem id).map swapNode) ∧
    (reverse h l).2.head = (h.get (l.head.getD 0)).prev ∧
    toArray (reverse h l).1 (reverse h l).2 = (toArray h l).reverse ∧
    (reverse h l).2.size = l.size := by
  obtain ⟨R, hswap, hout, hhd, hszr⟩ := reverse_swap hinv hsz
  refine ⟨hswap, hhd, ?_, hszr⟩
  rw [toArray_eq R, toArray_eq hinv, ← List.map_reverse]
  refine List.map_congr_left ?_
  intro id hid
  have hid2 : id ∈ ids := List.mem_reverse.mp hid
  obtain ⟨n, hn⟩ := Option.isSome_iff_exists.mp (hinv.isSome hid2)
  have hg : (reverse h l).1.get id = swapNode n := by
    rw [Heap.get, hswap id hid2, hn]
    rfl
  rw [hg, Heap.get_eq_of_mem h id n hn]
  rfl

/-- C3 counterexample: in the rational test triangle the reversed
ring's head is node 2, the old head's former prev, which differs from
the old head's former next, node 1. -/
theorem spec_C3_counterexample :
    2 ≤ triQ.2.size ∧
    (triQ.1.get (triQ.2.head.getD 0)).next = some 1 ∧
    (reverse triQ.1 triQ.2).2.head = some 2 ∧
    (reverse triQ.1 triQ.2).2.head ≠ (triQ.1.get (triQ.2.head.getD 0)).next :=
  ⟨by decide, by decide, by decide, by decide⟩

/-- C3 witness: the rational test triangle. -/
theorem spec_C3_witness :
    (RingInv triQ.1 triQ.2 [0, 1, 2] ∧ 2 ≤ triQ.2.size) ∧
    ((∀ id ∈ [0, 1, 2],
        (reverse triQ.1 triQ.2).1.mem id = (triQ.1.mem id).map swapNode) ∧
      (reverse triQ.1 triQ.2).2.head = (triQ.1.get (triQ.2.head.getD 0)).prev ∧
      toArray (reverse triQ.1 triQ.2).1 (reverse triQ.1 triQ.2).2
        = (toArray triQ.1 triQ.2).reverse ∧
      (reverse triQ.1 triQ.2).2.size = triQ.2.size) :=
  ⟨⟨by decide, by decide⟩, spec_C3 (by decide) (by decide)⟩

/-- C4: reversing twice restores the original traversal sequence, the
original head vertex, and the size. -/
theorem spec_C4 [Inhabited A] {h : Heap A} {l : CircularLinkedList} {ids : List Nat}
    (hinv : RingInv h l ids) :
    toArray (reverse (reverse h l).1 (reverse h l).2).1
      (reverse (reverse h l).1 (reverse h l).2).2 = toArray h l ∧
    (reverse (reverse h l).1 (reverse h l).2).2.head = l.head ∧
    (reverse (reverse h l).1 (reverse h l).2).2.size = l.size := by
  by_cases hsz : l.size ≤ 1
  · have hr1 : reverse h l = (h, l) := by rw [reverse, if_pos hsz]
    simp [hr1]
  · push_neg at hsz
    obtain ⟨R1, hswap1, hout1, hhd1, hsz1⟩ := reverse_swap hinv (by omega)
    obtain ⟨R2, hswap2, hout2, hhd2, hsz2⟩ := reverse_swap R1 (by rw [hsz1]; omega)
    have hne : ids ≠ [] := by
      intro e
      rw [hinv.size_eq, e] at hsz
      simp at hsz
    rw [List.reverse_reverse ids] at R2
    refine ⟨?_, ?_, ?_⟩
    · rw [toArray_eq R2, toArray_eq hinv]
      refine List.map_congr_left ?_
      intro id hid
      have hid2 : id ∈ ids.reverse := List.mem_reverse.mpr hid
      obtain ⟨n, hn⟩ := Option.isSome_iff_exists.mp (hinv.isSome hid)
      have hg : (reverse (reverse h l).1 (reverse h l).2).1.get id
          = swapNode (swapNode n) := by
        rw [Heap.get, hswap2 id hid2, hswap1 id hid, hn]
        rfl
      rw [hg, Heap.get_eq_of_mem h id n hn]
      rfl
    · rw [hhd2]
      have hd0 : l.head.getD 0 = cyc ids 0 := head_getD_eq hinv hne
      have hprev : (h.get (l.head.getD 0)).prev
          = some (cyc ids (0 + ids.length - 1)) := by
        rw [hd0]
        exact hinv.prev_cyc hne 0
      rw [hhd1, hprev]
      simp only [Option.getD_some]
      have hmem : cyc ids (0 + ids.length - 1) ∈ ids := cyc_mem ids hne _
      obtain ⟨n, hn⟩ := Option.isSome_iff_exists.mp (hinv.isSome hmem)
      have hg : (reverse h l).1.get (cyc ids (0 + ids.length - 1)) = swapNode n := by
        rw [Heap.get, hswap1 _ hmem, hn]
        rfl
      have hgn : h.get (cyc ids (0 + ids.length - 1)) = n :=
        Heap.get_eq_of_mem h _ n hn
      rw [hg, show (swapNode n).prev = n.next from rfl, ← hgn,
        hinv.next_cyc hne (0 + ids.length - 1),
        show 0 + ids.length - 1 + 1 = ids.length from by
          have := List.length_pos.mpr hne
          omega,
        cyc_len ids ids.length rfl, hinv.head_eq]
      rcases ids with _ | ⟨a, t⟩
      · exact absurd rfl hne
      · simp [cyc]
    · rw [hsz2, hsz1]

/-- C4 witness: the rational test triangle. -/
theorem spec_C4_witness :
    RingInv triQ.1 triQ.2 [0, 1, 2] ∧
    (toArray (reverse (reverse triQ.1 triQ.2).1 (reverse triQ.1 triQ.2).2).1
        (reverse (reverse triQ.1 triQ.2).1 (reverse triQ.1 triQ.2).2).2
        = toArray triQ.1 triQ.2 ∧
      (reverse (reverse triQ.1 triQ.2).1 (reverse triQ.1 triQ.2).2).2.head
        = triQ.2.head ∧
      (reverse (reverse triQ.1 triQ.2).1 (reverse triQ.1 triQ.2).2).2.size
        = triQ.2.size) :=
  ⟨by decide, @spec_C4 ℚ _ triQ.1 triQ.2 [0, 1, 2] (by decide)⟩

/-- C7: adaptive smoothing never mutates the caller's ring — its
invariant and point sequence survive unchanged in the produced heap —
the returned ring has the input's size, smooth is applied to the clone
exactly when both computed parameters are positive, and otherwise the
returned clone carries the input's point sequence. -/
theorem spec_C7 {h : Heap ℝ} {l : CircularLinkedList} {ids : List Nat}
    (hinv : RingInv h l ids) (zoomLevel : ℝ) (cfg : LODConfig) :
    RingInv (applyAdaptiveSmoothing h l zoomLevel cfg).1 l ids ∧
    toArray (applyAdaptiveSmoothing h l zoomLevel cfg).1 l = toArray h l ∧
    (applyAdaptiveSmoothing h l zoomLevel cfg).2.size = l.size ∧
    ((0 < (calculateLOD zoomLevel cfg).smoothingIterations ∧
        0 < (calculateLOD zoomLevel cfg).smoothingFactor) →
      applyAdaptiveSmoothing h l zoomLevel cfg
        = (smooth (cloneList h l).1 (cloneList h l).2
            (calculateLOD zoomLevel cfg).smoothingIterations
            (calculateLOD zoomLevel cfg).smoothingFactor, (cloneList h l).2)) ∧
    (¬(0 < (calculateLOD zoomLevel cfg).smoothingIterations ∧
        0 < (calculateLOD zoomLevel cfg).smoothingFactor) →
      toArray (applyAdaptiveSmoothing h l zoomLevel cfg).1
        (applyAdaptiveSmoothing h l zoomLevel cfg).2 = toArray h l) := by
  obtain ⟨ids2, Rc, hsub, hfr, harr, hszc, Rl, harrl, hmemids⟩ := cloneList_eq hinv
  have hstep : applyAdaptiveSmoothing h l zoomLevel cfg =
      if 0 < (calculateLOD zoomLevel cfg).smoothingIterations ∧
          0 < (calculateLOD zoomLevel cfg).smoothingFactor then
        (smooth (cloneList h l).1 (cloneList h l).2
          (calculateLOD zoomLevel cfg).smoothingIterations
          (calculateLOD zoomLevel cfg).smoothingFactor, (cloneList h l).2)
      else cloneList h l := rfl
  by_cases hc : 0 < (calculateLOD zoomLevel cfg).smoothingIterations ∧
      0 < (calculateLOD zoomLevel cfg).smoothingFactor
  · rw [hstep, if_pos hc]
    obtain ⟨Rs, hsm, hsf⟩ := smooth_facts Rc
      (calculateLOD zoomLevel cfg).smoothingIterations
      (calculateLOD zoomLevel cfg).smoothingFactor
    have hagree : ∀ id ∈ ids,
        (smooth (cloneList h l).1 (cloneList h l).2
          (calculateLOD zoomLevel cfg).smoothingIterations
          (calculateLOD zoomLevel cfg).smoothingFactor).mem id = h.mem id := by
      intro id hid
      have hnotin : id ∉ ids2 := by
        intro hid2
        have h1 := hinv.lt_fresh hid
        have h2 := hsub id hid2
        omega
      rw [hsm id hnotin, hmemids id hid]
    have hfr2 : h.fresh ≤ (smooth (cloneList h l).1 (cloneList h l).2
        (calculateLOD zoomLevel cfg).smoothingIterations
        (calculateLOD zoomLevel cfg).smoothingFactor).fresh := by
      rw [hsf]
      exact hfr
    exact ⟨ringinv_of_agree hinv hagree hfr2, toArray_of_agree hinv hagree hfr2,
      hszc, fun _ => rfl, fun hn => absurd hc hn⟩
  · rw [hstep, if_neg hc]
    exact ⟨Rl, harrl, hszc, fun hcc => absurd hcc hc, fun _ => harr⟩

/-- C7 witness: the empty real ring at zoom 1. -/
theorem spec_C7_witness :
    RingInv (Heap.empty ℝ) {} [] ∧
    (RingInv (applyAdaptiveSmoothing (Heap.empty ℝ) {} 1 defaultConfig).1 {} [] ∧
      toArray (applyAdaptiveSmoothing (Heap.empty ℝ) {} 1 defaultConfig).1 {}
        = toArray (Heap.empty ℝ) {} ∧
      (applyAdaptiveSmoothing (Heap.empty ℝ) {} 1 defaultConfig).2.size
        = ({} : CircularLinkedList).size ∧
      ((0 < (calculateLOD 1 defaultConfig).smoothingIterations ∧
          0 < (calculateLOD 1 defaultConfig).smoothingFactor) →
        applyAdaptiveSmoothing (Heap.empty ℝ) {} 1 defaultConfig
          = (smooth (cloneList (Heap.empty ℝ) {}).1 (cloneList (Heap.empty ℝ) {}).2
              (calculateLOD 1 defaultConfig).smoothingIterations
              (calculateLOD 1 defaultConfig).smoothingFactor,
            (cloneList (Heap.empty ℝ) {}).2)) ∧
      (¬(0 < (calculateLOD 1 defaultConfig).smoothingIterations ∧
          0 < (calculateLOD 1 defaultConfig).smoothingFactor) →
        toArray (applyAdaptiveSmoothing (Heap.empty ℝ) {} 1 defaultConfig).1
          (applyAdaptiveSmoothing (Heap.empty ℝ) {} 1 defaultConfig).2
          = toArray (Heap.empty ℝ) {})) :=
  ⟨ringinv_nil (Heap.empty ℝ), spec_C7 (ringinv_nil (Heap.empty ℝ)) 1 defaultConfig⟩

/-- C10: offset returns a ring with exactly one displaced point per
original vertex in traversal order, leaves the input ring's invariant
and point sequence intact, and the zero-length guard in normalize
yields the zero direction instead of a division by zero. -/
theorem spec_C10 {h : Heap ℝ} {l : CircularLinkedList} {ids : List Nat}
    (hinv : RingInv h l ids) (d : ℝ) (hsz : ¬l.size < 3) :
    (offset h l d).2.size = l.size ∧
    toArray (offset h l d).1 (offset h l d).2
      = (traverseIds h l).map (offsetPoint h d) ∧
    RingInv (offset h l d).1 l ids ∧
    toArray (offset h l d).1 l = toArray h l ∧
    (∀ v : ℝ × ℝ, Real.sqrt (v.1 * v.1 + v.2 * v.2) = 0 →
      GeometryUtils.normalize v = (0, 0)) := by
  have hstep : offset h l d = fromPoints h ((traverseIds h l).map (offsetPoint h d)) := by
    rw [offset, if_neg hsz]
  obtain ⟨ids2, R, harr, hlen, hsub, hmem, hfr⟩ :=
    fromPoints_build h ((traverseIds h l).map (offsetPoint h d))
  have hagree : ∀ id ∈ ids,
      (fromPoints h ((traverseIds h l).map (offsetPoint h d))).1.mem id = h.mem id :=
    fun id hid => hmem id (hinv.lt_fresh hid)
  refine ⟨?_, ?_, ?_, ?_, ?_⟩
  · rw [hstep, hlen, List.length_map, traverseIds_eq hinv, hinv.size_eq]
  · rw [hstep, harr]
  · rw [hstep]
    exact ringinv_of_agree hinv hagree hfr
  · rw [hstep]
    exact toArray_of_agree hinv hagree hfr
  · intro v hv
    simp [GeometryUtils.normalize, hv]

/-- C10 witness: the real test triangle offset by 2. -/
theorem spec_C10_witness :
    (RingInv triR.1 triR.2 [0, 1, 2] ∧ ¬triR.2.size < 3) ∧
    ((offset triR.1 triR.2 2).2.size = triR.2.size ∧
      toArray (offset triR.1 triR.2 2).1 (offset triR.1 triR.2 2).2
        = (traverseIds triR.1 triR.2).map (offsetPoint triR.1 2) ∧
      RingInv (offset triR.1 triR.2 2).1 triR.2 [0, 1, 2] ∧
      toArray (offset triR.1 triR.2 2).1 triR.2 = toArray triR.1 triR.2 ∧
      (∀ v : ℝ × ℝ, Real.sqrt (v.1 * v.1 + v.2 * v.2) = 0 →
        GeometryUtils.normalize v = (0, 0))) :=
  ⟨⟨by decide, by decide⟩, spec_C10 (by decide) 2 (by decide)⟩

set_option maxHeartbeats 2000000 in
/-- C6: on the real test triangle (0,0), (10,0), (0,10) — traversal
order as recorded in the third conjunct — fillet at the valid index 2
with radius 1 does splice nine arc points for a final size of 11, but
the two surviving original vertices are (10,0) and (0,10): the vertex
the code removed is the head (0,0) at index 0, not the vertex at the
requested index 2, because the backward branch of getNodeAt takes
size - 1 - index prev steps instead of size - index. -/
theorem spec_C6 :
    toArray triR.1 triR.2 = [(0, 0), (10, 0), (0, 10)] ∧
    (fillet triR.1 triR.2 2 1).2.size = 11 ∧
    (toArray (fillet triR.1 triR.2 2 1).1 (fillet triR.1 triR.2 2 1).2).take 2
      = [(10, 0), (0, 10)] := by
  have hsz : triR.2.size = 3 := rfl
  obtain ⟨sp, ep, hfill⟩ : ∃ sp ep, fillet triR.1 triR.2 2 1
      = insertArc (removeNodeByRef triR.1 triR.2 0).1
        (removeNodeByRef triR.1 triR.2 0).2.1 2
        (generateArcPoints sp ep (0, 0) 1 8) 0 := by
    rw [fillet, if_neg (by rw [hsz]; norm_num)]
    exact ⟨_, _, rfl⟩
  exact ⟨rfl, by rw [hfill]; rfl, by rw [hfill]; rfl⟩
